import Mathlib

/-!
# govendor `run/filter.go`: status filter parsing and import matching

A shallow embedding of `src/run/filter.go`.

Go strings are sequences of bytes.  They are embedded as `List Char`, one
list element per byte; every byte value is a `Char`, so each Go string has an
image, and every literal the code inspects (`+`, `^`, `,` and the keywords) is
ASCII.  `strings.HasPrefix`, `strings.TrimPrefix` and `strings.Split` are
embedded element-wise, as the Go library defines them byte-wise.
-/

set_option autoImplicit false

namespace Govendor

/-- A Go string: the list of its bytes. -/
abbrev GoString := List Char

/-- The Go library function `strings.HasPrefix(s, prefix)`. -/
def hasPrefix : GoString → GoString → Bool
  | _, [] => true
  | [], _ :: _ => false
  | c :: s, d :: p => c == d && hasPrefix s p

/-- The Go library function `strings.TrimPrefix(s, prefix)`. -/
def trimPrefix (s p : GoString) : GoString :=
  if hasPrefix s p then s.drop p.length else s

/-- The pieces of `s` and the piece under construction `cur`, split at `,`. -/
def splitCommaAux : GoString → GoString → List GoString
  | [], cur => [cur.reverse]
  | c :: s, cur =>
    if c = ',' then cur.reverse :: splitCommaAux s [] else splitCommaAux s (c :: cur)

/-- The Go library call `strings.Split(s, ",")`: the substrings between the
commas of `s`, always at least one. -/
def splitComma (s : GoString) : List GoString := splitCommaAux s []

namespace context

/-- Modelled from the spec: the type `context.StatusLocation` is declared
outside `run/filter.go`.  Location is one of standard-library, external,
vendored, local, not-found, or unset (the zero value, a wildcard). -/
inductive StatusLocation
  | LocationUnknown
  | LocationNotFound
  | LocationStandard
  | LocationLocal
  | LocationExternal
  | LocationVendor
  deriving DecidableEq, Repr

/-- Modelled from the spec: the type `context.StatusPresence` is declared
outside `run/filter.go`.  Presence is unset (the zero value, a wildcard),
unused or missing. -/
inductive StatusPresence
  | PresenceFound
  | PresenceMissing
  | PresenceUnsued
  deriving DecidableEq, Repr

/-- Modelled from the spec: the type `context.StatusType` is declared outside
`run/filter.go`.  Type is unset (the zero value, a wildcard) or program. -/
inductive StatusType
  | TypeUnknown
  | TypeProgram
  deriving DecidableEq, Repr

/-- Modelled from the spec: the struct `context.Status` is declared outside
`run/filter.go`; these are the four fields the code sets (`Typ` is the
Go field `Type`).  The default of each field is its Go zero value. -/
structure Status where
  Typ : StatusType := StatusType.TypeUnknown
  Location : StatusLocation := StatusLocation.LocationUnknown
  Presence : StatusPresence := StatusPresence.PresenceFound
  Not : Bool := false
  deriving DecidableEq, Repr

/-- Modelled from the spec: the struct `context.StatusGroup` is declared
outside `run/filter.go`; a tree node with a list of predicates, a list of
child groups, the combinator (`And`, false meaning OR) and a negation flag. -/
inductive StatusGroup
  | mk (Status : List Status) (Group : List StatusGroup) (And : Bool) (Not : Bool)

namespace StatusGroup

/-- Field `Status` of a group. -/
def Status : StatusGroup → List context.Status
  | mk s _ _ _ => s

/-- Field `Group` of a group. -/
def Group : StatusGroup → List StatusGroup
  | mk _ g _ _ => g

/-- Field `And` of a group. -/
def And : StatusGroup → Bool
  | mk _ _ a _ => a

/-- Field `Not` of a group. -/
def Not : StatusGroup → Bool
  | mk _ _ _ n => n

/-- The Go zero value `context.StatusGroup{}`. -/
def zero : StatusGroup := mk [] [] false false

end StatusGroup

end context

open context

/-- The package-level list `outside`. -/
def outside : List Status :=
  [ { Location := StatusLocation.LocationExternal },
    { Presence := StatusPresence.PresenceMissing } ]

/-- The package-level list `normal`. -/
def normal : List Status :=
  [ { Location := StatusLocation.LocationExternal },
    { Location := StatusLocation.LocationVendor },
    { Location := StatusLocation.LocationLocal },
    { Location := StatusLocation.LocationNotFound } ]

/-- The package-level list `all`. -/
def all : List Status :=
  [ { Location := StatusLocation.LocationStandard },
    { Location := StatusLocation.LocationExternal },
    { Location := StatusLocation.LocationVendor },
    { Location := StatusLocation.LocationLocal },
    { Location := StatusLocation.LocationNotFound } ]

/-- The function `statusGroupFromList`: a group with the given flags whose
predicates are the elements of `list`, appended one by one. -/
def statusGroupFromList (list : List Status) (and not : Bool) : StatusGroup :=
  list.foldl (fun sg s => StatusGroup.mk (sg.Status ++ [s]) sg.Group sg.And sg.Not)
    (StatusGroup.mk [] [] and not)

/-- The constant `notOp`. -/
def notOp : GoString := ['^']

/-- The errors `parseFilter` can return: the `fmt.Errorf("unknown status %q", s)`
of `parseStatusGroup`, carrying the term `s`, or an error of `pkgspec.Parse`,
of a type `E` left open. -/
inductive Error (E : Type)
  | unknownStatus (s : GoString)
  | pkgspec (e : E)
  deriving DecidableEq, Repr

/-- The `switch` of `parseStatusGroup`: the cases in source order.  The result
is the updated predicate `st` and the keyword list `list` (`[]` for Go's nil),
or `none` for the `default` case. -/
def statusSwitch (st : Status) (s : GoString) : Option (Status × List Status) :=
  if hasPrefix "external".toList s then
    some ({ st with Location := StatusLocation.LocationExternal }, [])
  else if hasPrefix "vendor".toList s then
    some ({ st with Location := StatusLocation.LocationVendor }, [])
  else if hasPrefix "unused".toList s then
    some ({ st with Presence := StatusPresence.PresenceUnsued }, [])
  else if hasPrefix "missing".toList s then
    some ({ st with Presence := StatusPresence.PresenceMissing }, [])
  else if hasPrefix "local".toList s then
    some ({ st with Location := StatusLocation.LocationLocal }, [])
  else if hasPrefix "program".toList s then
    some ({ st with Typ := StatusType.TypeProgram }, [])
  else if hasPrefix "std".toList s then
    some ({ st with Location := StatusLocation.LocationStandard }, [])
  else if hasPrefix "standard".toList s then
    some ({ st with Location := StatusLocation.LocationStandard }, [])
  else if hasPrefix "all".toList s then
    some (st, all)
  else if hasPrefix "normal".toList s then
    some (st, normal)
  else if hasPrefix "outside".toList s then
    some (st, outside)
  else
    none

/-- One iteration of the loop of `parseStatusGroup` on the term `s`, from the
group `sg` built so far: the new group, or the error of the `default` case. -/
def parseStatusTerm {E : Type} (sg : StatusGroup) (s : GoString) :
    Except (Error E) StatusGroup :=
  let st : Status := {}
  let p : Status × GoString :=
    if hasPrefix s notOp then ({ st with Not := true }, trimPrefix s notOp) else (st, s)
  match statusSwitch p.1 p.2 with
  | none => Except.error (Error.unknownStatus p.2)
  | some (st, list) =>
    if list.length = 0 then
      Except.ok (StatusGroup.mk (sg.Status ++ [st]) sg.Group sg.And sg.Not)
    else
      Except.ok (StatusGroup.mk sg.Status
        (sg.Group ++ [statusGroupFromList list false st.Not]) sg.And sg.Not)

/-- The loop of `parseStatusGroup` over the terms `ss`: the named results
`(sg, err)` at the `return`.  An error returns at once, with the group as
built before the failing term. -/
def parseStatusLoop {E : Type} : StatusGroup → List GoString → StatusGroup × Option (Error E)
  | sg, [] => (sg, none)
  | sg, s :: ss =>
    match parseStatusTerm sg s with
    | Except.error e => (sg, some e)
    | Except.ok sg1 => parseStatusLoop sg1 ss

/-- The function `parseStatusGroup`: both named results. -/
def parseStatusGroup {E : Type} (statusString : GoString) : StatusGroup × Option (Error E) :=
  parseStatusLoop (StatusGroup.mk [] [] true false) (splitComma statusString)

namespace context

/-- Modelled from the spec: the method `Status.Match` is defined outside
`run/filter.go`.  `MatchesPredicate(predicate, item)`: true iff, for every
non-wildcard field of `predicate`, the item's corresponding status field equals
it; XOR with `predicate.Negate`. -/
def Status.Match (item predicate : Status) : Bool :=
  xor
    ((predicate.Location = StatusLocation.LocationUnknown ∨ item.Location = predicate.Location) ∧
      (predicate.Presence = StatusPresence.PresenceFound ∨ item.Presence = predicate.Presence) ∧
      (predicate.Typ = StatusType.TypeUnknown ∨ item.Typ = predicate.Typ))
    predicate.Not

mutual

/-- Modelled from the spec: the method `Status.MatchGroup` is defined outside
`run/filter.go`.  `MatchesGroup(group, item)`: the conjunction (combinator AND)
or disjunction (combinator OR) over the results of the group's predicates and
of its children, XOR the group's negation flag. -/
def Status.MatchGroup (item : Status) : StatusGroup → Bool
  | StatusGroup.mk ss gs and not =>
    let results := ss.map (fun p => Status.Match item p) ++ Status.MatchGroups item gs
    xor (if and then results.all id else results.any id) not

/-- Modelled from the spec: the results of `MatchesGroup` on each child of a
group, in order. -/
def Status.MatchGroups (item : Status) : List StatusGroup → List Bool
  | [] => []
  | g :: gs => Status.MatchGroup item g :: Status.MatchGroups item gs

end

/-- Modelled from the spec: the struct `context.StatusItem` is declared outside
`run/filter.go`; an inventory entry with its status and its local and
canonical paths, the fields the code reads. -/
structure StatusItem where
  Status : Status
  Local : GoString
  Canonical : GoString
  deriving DecidableEq

end context

namespace pkgspec

/-- Modelled from the spec: the struct `pkgspec.Pkg` is declared outside
`run/filter.go`; a package path plus the tree flag, the fields the code
reads. -/
structure Pkg where
  Path : GoString
  MatchTree : Bool
  deriving DecidableEq

end pkgspec

/-- The struct `filterImport`. -/
structure filterImport where
  Pkg : pkgspec.Pkg
  Added : Bool := false
  deriving DecidableEq

/-- The struct `filter`. -/
structure filter where
  Status : StatusGroup := StatusGroup.zero
  Import : List filterImport := []

/-- The method `filter.HasStatus`. -/
def filter.HasStatus (f : filter) (item : StatusItem) : Bool :=
  item.Status.MatchGroup f.Status

/-- The loop of `filter.FindImport` from position `i` of `f.Import`: the
position of the entry returned (the pointer `imp`), if any, and the entries
after the call. -/
def FindImportLoop (item : StatusItem) : List filterImport → Nat → Option Nat × List filterImport
  | [], _ => (none, [])
  | imp :: rest, i =>
    if imp.Pkg.Path = item.Local ∨ imp.Pkg.Path = item.Canonical then
      (some i, { imp with Added := true } :: rest)
    else if imp.Pkg.MatchTree ∧
        (hasPrefix item.Local imp.Pkg.Path ∨ hasPrefix item.Canonical imp.Pkg.Path) then
      (some i, { imp with Added := true } :: rest)
    else
      let r := FindImportLoop item rest (i + 1)
      (r.1, imp :: r.2)

/-- The method `filter.FindImport`: the position in `f.Import` of the entry
whose pointer is returned (`none` for `nil`), and the filter after the call:
the entries are shared by pointer, so the caller sees the flag set. -/
def filter.FindImport (f : filter) (item : StatusItem) : Option Nat × filter :=
  let r := FindImportLoop item f.Import 0
  (r.1, { f with Import := r.2 })

/-- The loop of `parseFilter` over the arguments, from the filter `f` built so
far: both results at the `return`.  `parse` is `pkgspec.Parse`, defined
outside `run/filter.go`. -/
def parseFilterLoop {E : Type} (parse : GoString → GoString → Except E pkgspec.Pkg)
    (currentGoPath : GoString) : filter → List GoString → filter × Option (Error E)
  | f, [] => (f, none)
  | f, a :: args =>
    if a.length = 0 then
      parseFilterLoop parse currentGoPath f args
    else if a.head? = some '+' then
      match parseStatusGroup (a.drop 1) with
      | (_, some err) => (f, some err)
      | (sg, none) =>
        parseFilterLoop parse currentGoPath
          { f with Status := StatusGroup.mk f.Status.Status (f.Status.Group ++ [sg])
                      f.Status.And f.Status.Not } args
    else
      match parse currentGoPath a with
      | Except.error err => (f, some (Error.pkgspec err))
      | Except.ok pkg =>
        parseFilterLoop parse currentGoPath
          { f with Import := f.Import ++ [{ Pkg := pkg }] } args

/-- The function `parseFilter`: both results. -/
def parseFilter {E : Type} (parse : GoString → GoString → Except E pkgspec.Pkg)
    (currentGoPath : GoString) (args : List GoString) : filter × Option (Error E) :=
  parseFilterLoop parse currentGoPath { Import := [] } args

/-- All the values of a list of optional values, if none is missing. -/
def allSome {α : Type} : List (Option α) → Option (List α)
  | [] => some []
  | none :: _ => none
  | some a :: l =>
    match allSome l with
    | none => none
    | some r => some (a :: r)

/-- The function `insertListToAllNot`, the group `*sg` after the call.  The
first argument bounds the depth of the recursion: `none` when the bound is
reached. -/
def insertListToAllNot : Nat → StatusGroup → List Status → Option StatusGroup
  | 0, _, _ => none
  | fuel + 1, sg, list =>
    let sg1 : StatusGroup :=
      if sg.Group.length = 0 then
        let allStatusNot := sg.Status.all (fun s => !(s.Not == false))
        if allStatusNot then
          StatusGroup.mk sg.Status (sg.Group ++ [statusGroupFromList list false false])
            sg.And sg.Not
        else sg
      else sg
    match allSome (sg1.Group.map (fun c => insertListToAllNot fuel c list)) with
    | none => none
    | some gs => some (StatusGroup.mk sg1.Status gs sg1.And sg1.Not)

/-! ## The keyword table, as the specification words it -/

/-- The Keyword Table of the specification: the eleven keywords in their fixed
order, each with what it denotes, an atomic predicate or a fixed list. -/
def keywordTable : List (GoString × (Status ⊕ List Status)) :=
  [ ("external".toList, Sum.inl { Location := StatusLocation.LocationExternal }),
    ("vendor".toList, Sum.inl { Location := StatusLocation.LocationVendor }),
    ("unused".toList, Sum.inl { Presence := StatusPresence.PresenceUnsued }),
    ("missing".toList, Sum.inl { Presence := StatusPresence.PresenceMissing }),
    ("local".toList, Sum.inl { Location := StatusLocation.LocationLocal }),
    ("program".toList, Sum.inl { Typ := StatusType.TypeProgram }),
    ("std".toList, Sum.inl { Location := StatusLocation.LocationStandard }),
    ("standard".toList, Sum.inl { Location := StatusLocation.LocationStandard }),
    ("all".toList, Sum.inr all),
    ("normal".toList, Sum.inr normal),
    ("outside".toList, Sum.inr outside) ]

/-- A term begins with the negation marker. -/
def termNegated (t : GoString) : Bool := decide (t.head? = some '^')

/-- A term after removing one optional leading negation marker. -/
def termBody (t : GoString) : GoString := if termNegated t then t.tail else t

/-- The first entry of the Keyword Table whose keyword has `t` as a prefix. -/
def resolveKeyword (t : GoString) : Option (GoString × (Status ⊕ List Status)) :=
  keywordTable.find? (fun k => decide (t <+: k.1))

/-- The specification of the resolution of the terms `ts`, left to right, from
the group `sg`: each term is resolved to the first keyword it is a prefix of;
an atomic keyword appends its predicate, a list keyword appends the OR group
of its list, each negated exactly when the term began with `^`; a term that
no keyword resolves stops with the unknown-status error. -/
def resolveTerms {E : Type} : StatusGroup → List GoString → StatusGroup × Option (Error E)
  | sg, [] => (sg, none)
  | sg, t :: ts =>
    match resolveKeyword (termBody t) with
    | none => (sg, some (Error.unknownStatus (termBody t)))
    | some (_, Sum.inl p) =>
      resolveTerms
        (StatusGroup.mk (sg.Status ++ [{ p with Not := termNegated t }]) sg.Group sg.And sg.Not) ts
    | some (_, Sum.inr l) =>
      resolveTerms
        (StatusGroup.mk sg.Status (sg.Group ++ [StatusGroup.mk l [] false (termNegated t)])
          sg.And sg.Not) ts

/-- No keyword of the table has `t` as a prefix. -/
def unknownTerm (t : GoString) : Prop := ∀ k ∈ keywordTable, ¬ t <+: k.1

instance (t : GoString) : Decidable (unknownTerm t) :=
  List.decidableBAll (fun k : GoString × (Status ⊕ List Status) => ¬ t <+: k.1) keywordTable

/-! ## Import matching, as the specification words it -/

/-- The entry `e` matches `item`: its path equals the local or the canonical
path of the item, or its tree flag is set and its path is a prefix of one of
them. -/
def entryMatches (item : StatusItem) (e : filterImport) : Prop :=
  e.Pkg.Path = item.Local ∨ e.Pkg.Path = item.Canonical ∨
    (e.Pkg.MatchTree = true ∧ (e.Pkg.Path <+: item.Local ∨ e.Pkg.Path <+: item.Canonical))

instance (item : StatusItem) (e : filterImport) : Decidable (entryMatches item e) :=
  inferInstanceAs (Decidable (_ ∨ _ ∨ (_ ∧ (_ ∨ _))))

/-! ## The Default-Scope Fallback, as the specification words it -/

mutual

/-- The group the specification describes as the result of the fallback with
the list `list`: every group that has no children and whose predicates are all
negated gets one new child, the OR group of `list`, not negated and without
children, after its existing children; nothing else changes. -/
def widened (list : List Status) : StatusGroup → StatusGroup
  | StatusGroup.mk ss gs a n =>
    StatusGroup.mk ss
      (widenedList list gs ++
        if gs.isEmpty && ss.all (fun s => s.Not) then [StatusGroup.mk list [] false false]
        else [])
      a n

/-- The groups of a list, each as `widened` describes. -/
def widenedList (list : List Status) : List StatusGroup → List StatusGroup
  | [] => []
  | g :: gs => widened list g :: widenedList list gs

end

mutual

/-- The tree contains a group that has no children and only negated
predicates. -/
def hasAllNotLeaf : StatusGroup → Bool
  | StatusGroup.mk ss gs _ _ => (gs.isEmpty && ss.all (fun s => s.Not)) || anyAllNotLeaf gs

/-- One of the trees contains a group that has no children and only negated
predicates. -/
def anyAllNotLeaf : List StatusGroup → Bool
  | [] => false
  | g :: gs => hasAllNotLeaf g || anyAllNotLeaf gs

end

mutual

/-- The number of groups on the longest path from a group down to a leaf. -/
def depth : StatusGroup → Nat
  | StatusGroup.mk _ gs _ _ => depthList gs + 1

/-- The largest depth of the groups of a list. -/
def depthList : List StatusGroup → Nat
  | [] => 0
  | g :: gs => max (depth g) (depthList gs)

end

/-- The locations of the `normal` list. -/
def normalLocations : List StatusLocation :=
  [StatusLocation.LocationExternal, StatusLocation.LocationVendor,
    StatusLocation.LocationLocal, StatusLocation.LocationNotFound]

/-! ## The tokens of `parseFilter`, as the specification words them -/

/-- The error of the token `a` on its own: none for the empty token, the error
of the status expression after the `+` for a status token, the error of the
reference parser for any other token. -/
def tokenError {E : Type} (parse : GoString → GoString → Except E pkgspec.Pkg)
    (currentGoPath : GoString) (a : GoString) : Option (Error E) :=
  if a = [] then none
  else if a.head? = some '+' then (parseStatusGroup a.tail).2
  else
    match parse currentGoPath a with
    | Except.error e => some (Error.pkgspec e)
    | Except.ok _ => none

/-! ## The result of `parseFilter`, as the specification words it -/

/-- The status tokens of an argument list: the tokens that begin with `+`, in
argument order. -/
def statusTokens (args : List GoString) : List GoString :=
  args.filter (fun a => decide (a.head? = some '+'))

/-- The reference tokens of an argument list: the non-empty tokens that do not
begin with `+`, in argument order. -/
def referenceTokens (args : List GoString) : List GoString :=
  args.filter (fun a => decide (a ≠ [] ∧ a.head? ≠ some '+'))

/-- The locations of the `all` list. -/
def allLocations : List StatusLocation :=
  [StatusLocation.LocationStandard, StatusLocation.LocationExternal,
    StatusLocation.LocationVendor, StatusLocation.LocationLocal,
    StatusLocation.LocationNotFound]

/-- The predicate a term denotes when it resolves to an atomic keyword. -/
def termPredicate (t : GoString) : Option Status :=
  match resolveKeyword (termBody t) with
  | some (_, Sum.inl p) => some { p with Not := termNegated t }
  | _ => none

/-- The child group a term denotes when it resolves to a list keyword: the OR
group of the fixed list, negated exactly when the term began with `^`. -/
def termListGroup (t : GoString) : Option StatusGroup :=
  match resolveKeyword (termBody t) with
  | some (_, Sum.inr l) => some (StatusGroup.mk l [] false (termNegated t))
  | _ => none

/-- The resolution of the terms `ts` as `resolveTerms` does it, with the
keywords checked in the order of `table`. -/
def resolveTermsIn {E : Type} (table : List (GoString × (Status ⊕ List Status))) :
    StatusGroup → List GoString → StatusGroup × Option (Error E)
  | sg, [] => (sg, none)
  | sg, t :: ts =>
    match table.find? (fun k => decide (termBody t <+: k.1)) with
    | none => (sg, some (Error.unknownStatus (termBody t)))
    | some (_, Sum.inl p) =>
      resolveTermsIn table
        (StatusGroup.mk (sg.Status ++ [{ p with Not := termNegated t }]) sg.Group sg.And sg.Not) ts
    | some (_, Sum.inr l) =>
      resolveTermsIn table
        (StatusGroup.mk sg.Status (sg.Group ++ [StatusGroup.mk l [] false (termNegated t)])
          sg.And sg.Not) ts

/-! ## Lemmas on the string functions -/

theorem hasPrefix_iff (s p : GoString) : hasPrefix s p = true ↔ p <+: s := by
  induction p generalizing s with
  | nil => simp [hasPrefix]
  | cons d p ih =>
    cases s with
    | nil => simp [hasPrefix]
    | cons c s =>
      simp only [hasPrefix, Bool.and_eq_true, beq_iff_eq, ih, List.cons_prefix_cons]
      constructor
      · rintro ⟨h, h2⟩; exact ⟨h.symm, h2⟩
      · rintro ⟨h, h2⟩; exact ⟨h.symm, h2⟩

theorem hasPrefix_notOp (s : GoString) : hasPrefix s notOp = termNegated s := by
  cases s with
  | nil => rfl
  | cons c s =>
    by_cases h : c = '^'
    · subst h; simp [hasPrefix, notOp, termNegated]
    · simp [hasPrefix, notOp, termNegated, h]

theorem trimPrefix_notOp (s : GoString) (h : termNegated s = true) :
    trimPrefix s notOp = s.tail := by
  rw [trimPrefix, hasPrefix_notOp, h]
  cases s <;> simp [notOp]

theorem splitCommaAux_ne_nil (s cur : GoString) : splitCommaAux s cur ≠ [] := by
  induction s generalizing cur with
  | nil => simp [splitCommaAux]
  | cons c s ih =>
    rw [splitCommaAux]
    split
    · simp
    · exact ih _

theorem splitCommaAux_spec (s cur : GoString) (hcur : ',' ∉ cur) :
    List.intercalate [','] (splitCommaAux s cur) = cur.reverse ++ s ∧
      ∀ t ∈ splitCommaAux s cur, ',' ∉ t := by
  induction s generalizing cur with
  | nil => simp [splitCommaAux, List.intercalate, hcur]
  | cons c s ih =>
    rw [splitCommaAux]
    by_cases hc : c = ','
    · subst hc
      rw [if_pos rfl]
      obtain ⟨h1, h2⟩ := ih [] (by simp)
      constructor
      · rcases hs : splitCommaAux s [] with _ | ⟨x, l⟩
        · exact absurd hs (splitCommaAux_ne_nil _ _)
        · rw [hs] at h1
          simp only [List.intercalate, List.intersperse_cons_cons, List.flatten_cons] at h1 ⊢
          rw [h1]; simp
      · intro t ht
        rcases List.mem_cons.1 ht with rfl | ht
        · simpa using hcur
        · exact h2 t ht
    · rw [if_neg hc]
      obtain ⟨h1, h2⟩ := ih (c :: cur) (by simp [hcur, Ne.symm hc])
      exact ⟨by rw [h1]; simp, h2⟩

/-- The model of `strings.Split(s, ",")` returns the pieces of `s` between its
commas: joined with commas they give `s` back, none contains a comma, and
there is at least one. -/
theorem splitComma_spec (s : GoString) :
    List.intercalate [','] (splitComma s) = s ∧ (∀ t ∈ splitComma s, ',' ∉ t) ∧
      splitComma s ≠ [] := by
  obtain ⟨h1, h2⟩ := splitCommaAux_spec s [] (by simp)
  exact ⟨by simpa using h1, h2, splitCommaAux_ne_nil _ _⟩

theorem statusGroupFromList_eq (list : List Status) (and not : Bool) :
    statusGroupFromList list and not = StatusGroup.mk list [] and not := by
  have key : ∀ (l pre : List Status),
      l.foldl (fun sg s => StatusGroup.mk (sg.Status ++ [s]) sg.Group sg.And sg.Not)
        (StatusGroup.mk pre [] and not) = StatusGroup.mk (pre ++ l) [] and not := by
    intro l
    induction l with
    | nil => intro pre; simp
    | cons a l ih =>
      intro pre
      rw [List.foldl_cons]
      show List.foldl _ (StatusGroup.mk (pre ++ [a]) [] and not) l = _
      rw [ih]; simp
  simpa [statusGroupFromList] using key list []


theorem find_keyword_pos {α : Type} (t name : GoString) (d : α) (ks : List (GoString × α))
    (h : hasPrefix name t = true) :
    ((name, d) :: ks).find? (fun k => decide (t <+: k.1)) = some (name, d) := by
  rw [hasPrefix_iff] at h
  simp [List.find?_cons, h]

theorem find_keyword_neg {α : Type} (t name : GoString) (d : α) (ks : List (GoString × α))
    (h : ¬ hasPrefix name t = true) :
    ((name, d) :: ks).find? (fun k => decide (t <+: k.1)) =
      ks.find? (fun k => decide (t <+: k.1)) := by
  rw [hasPrefix_iff] at h
  simp [List.find?_cons, h]

/-- The `switch` of `parseStatusGroup` picks the first keyword of the table
that has the term as a prefix. -/
theorem statusSwitch_eq (neg : Bool) (t : GoString) :
    statusSwitch { Not := neg } t =
      match resolveKeyword t with
      | none => none
      | some (_, Sum.inl p) => some ({ p with Not := neg }, [])
      | some (_, Sum.inr l) => some ({ Not := neg }, l) := by
  unfold statusSwitch resolveKeyword keywordTable
  by_cases h0 : hasPrefix "external".toList t = true
  · rw [if_pos h0, find_keyword_pos _ _ _ _ h0]
  rw [if_neg h0, find_keyword_neg _ _ _ _ h0]
  by_cases h1 : hasPrefix "vendor".toList t = true
  · rw [if_pos h1, find_keyword_pos _ _ _ _ h1]
  rw [if_neg h1, find_keyword_neg _ _ _ _ h1]
  by_cases h2 : hasPrefix "unused".toList t = true
  · rw [if_pos h2, find_keyword_pos _ _ _ _ h2]
  rw [if_neg h2, find_keyword_neg _ _ _ _ h2]
  by_cases h3 : hasPrefix "missing".toList t = true
  · rw [if_pos h3, find_keyword_pos _ _ _ _ h3]
  rw [if_neg h3, find_keyword_neg _ _ _ _ h3]
  by_cases h4 : hasPrefix "local".toList t = true
  · rw [if_pos h4, find_keyword_pos _ _ _ _ h4]
  rw [if_neg h4, find_keyword_neg _ _ _ _ h4]
  by_cases h5 : hasPrefix "program".toList t = true
  · rw [if_pos h5, find_keyword_pos _ _ _ _ h5]
  rw [if_neg h5, find_keyword_neg _ _ _ _ h5]
  by_cases h6 : hasPrefix "std".toList t = true
  · rw [if_pos h6, find_keyword_pos _ _ _ _ h6]
  rw [if_neg h6, find_keyword_neg _ _ _ _ h6]
  by_cases h7 : hasPrefix "standard".toList t = true
  · rw [if_pos h7, find_keyword_pos _ _ _ _ h7]
  rw [if_neg h7, find_keyword_neg _ _ _ _ h7]
  by_cases h8 : hasPrefix "all".toList t = true
  · rw [if_pos h8, find_keyword_pos _ _ _ _ h8]
  rw [if_neg h8, find_keyword_neg _ _ _ _ h8]
  by_cases h9 : hasPrefix "normal".toList t = true
  · rw [if_pos h9, find_keyword_pos _ _ _ _ h9]
  rw [if_neg h9, find_keyword_neg _ _ _ _ h9]
  by_cases h10 : hasPrefix "outside".toList t = true
  · rw [if_pos h10, find_keyword_pos _ _ _ _ h10]
  rw [if_neg h10, find_keyword_neg _ _ _ _ h10]
  rfl

/-- The lists of the keyword table are not empty. -/
theorem resolveKeyword_list_ne_nil (t name : GoString) (l : List Status)
    (h : resolveKeyword t = some (name, Sum.inr l)) : l.length ≠ 0 := by
  have hm := List.mem_of_find?_eq_some h
  simp only [keywordTable, List.mem_cons, Prod.mk.injEq, List.mem_singleton, reduceCtorEq,
    and_false, false_or, Sum.inr.injEq, List.not_mem_nil, or_false] at hm
  rcases hm with ⟨_, rfl⟩ | ⟨_, rfl⟩ | ⟨_, rfl⟩ <;> decide

theorem resolveKeyword_eq_none (t : GoString) : resolveKeyword t = none ↔ unknownTerm t := by
  simp [resolveKeyword, unknownTerm, List.find?_eq_none]

/-- The negation marker is read as the specification says. -/
theorem parseStatusTerm_strip (t : GoString) :
    (if hasPrefix t notOp then
        (({ Not := true } : Status), trimPrefix t notOp)
      else (({ } : Status), t)) = ({ Not := termNegated t }, termBody t) := by
  rw [hasPrefix_notOp]
  cases h : termNegated t
  · simp [termBody, h]
  · simp [termBody, h, trimPrefix_notOp t h]

/-- One iteration of the loop of `parseStatusGroup` resolves the term through
the keyword table. -/
theorem parseStatusTerm_eq {E : Type} (sg : StatusGroup) (t : GoString) :
    (parseStatusTerm sg t : Except (Error E) StatusGroup) =
      match resolveKeyword (termBody t) with
      | none => Except.error (Error.unknownStatus (termBody t))
      | some (_, Sum.inl p) =>
        Except.ok
          (StatusGroup.mk (sg.Status ++ [{ p with Not := termNegated t }]) sg.Group sg.And sg.Not)
      | some (_, Sum.inr l) =>
        Except.ok
          (StatusGroup.mk sg.Status (sg.Group ++ [StatusGroup.mk l [] false (termNegated t)])
            sg.And sg.Not) := by
  unfold parseStatusTerm
  simp only []
  rw [parseStatusTerm_strip, statusSwitch_eq]
  rcases h : resolveKeyword (termBody t) with _ | ⟨name, p | l⟩
  · rfl
  · simp
  · have := resolveKeyword_list_ne_nil _ _ _ h
    simp [this, statusGroupFromList_eq]

/-- The loop of `parseStatusGroup` is the resolution of the terms through the
keyword table. -/
theorem parseStatusLoop_eq {E : Type} (sg : StatusGroup) (ts : List GoString) :
    (parseStatusLoop sg ts : StatusGroup × Option (Error E)) = resolveTerms sg ts := by
  induction ts generalizing sg with
  | nil => rfl
  | cons t ts ih =>
    rw [parseStatusLoop, resolveTerms, parseStatusTerm_eq]
    rcases h : resolveKeyword (termBody t) with _ | ⟨name, p | l⟩
    · rfl
    · simp only []; rw [ih]
    · simp only []; rw [ih]

/-- The error of the resolution of a list of terms is the unknown-status
error of the first term no keyword resolves. -/
theorem resolveTerms_error {E : Type} (sg : StatusGroup) (ts : List GoString) :
    (resolveTerms sg ts : StatusGroup × Option (Error E)).2 =
      ((ts.map termBody).find? (fun b => decide (unknownTerm b))).map Error.unknownStatus := by
  induction ts generalizing sg with
  | nil => rfl
  | cons t ts ih =>
    rw [resolveTerms]
    rcases h : resolveKeyword (termBody t) with _ | ⟨name, p | l⟩
    · have hu : unknownTerm (termBody t) := (resolveKeyword_eq_none _).1 h
      simp [List.find?_cons, hu]
    · have hu : ¬ unknownTerm (termBody t) := by
        rw [← resolveKeyword_eq_none, h]; simp
      simp only [List.map_cons, List.find?_cons, hu, decide_False]
      exact ih _
    · have hu : ¬ unknownTerm (termBody t) := by
        rw [← resolveKeyword_eq_none, h]; simp
      simp only [List.map_cons, List.find?_cons, hu, decide_False]
      exact ih _

/-! ## Resolution of status terms -/

/-- C1: `parseStatusGroup` resolves every term of its argument, after removing
one optional leading `^`, to the first keyword of the fixed table that has the
term as a prefix, and appends what the keyword denotes, negated exactly when
the term began with `^`; the term `s` resolves to `std`. -/
theorem parseStatusGroup_resolves_first_keyword :
    (∀ (E : Type) (statusString : GoString),
      (parseStatusGroup statusString : StatusGroup × Option (Error E)) =
        resolveTerms (StatusGroup.mk [] [] true false) (splitComma statusString)) ∧
    resolveKeyword "s".toList =
      some ("std".toList, Sum.inl { Location := StatusLocation.LocationStandard }) ∧
    (parseStatusGroup "s".toList : StatusGroup × Option (Error Unit)) =
      (StatusGroup.mk [{ Location := StatusLocation.LocationStandard }] [] true false, none) ∧
    (parseStatusGroup "^s".toList : StatusGroup × Option (Error Unit)) =
      (StatusGroup.mk [{ Location := StatusLocation.LocationStandard, Not := true }] [] true false,
        none) := by
  refine ⟨fun E s => parseStatusLoop_eq _ _, by decide, rfl, rfl⟩

/-- C2: `parseStatusGroup` returns an error exactly when some comma-separated
term, after removing one optional leading `^`, is a prefix of no keyword, and
the error is the unknown-status error of the first such term; matching is
case-sensitive. -/
theorem parseStatusGroup_error_iff :
    (∀ (E : Type) (statusString : GoString),
      ((parseStatusGroup statusString : StatusGroup × Option (Error E)).2 ≠ none ↔
        ∃ t ∈ splitComma statusString, unknownTerm (termBody t)) ∧
      (parseStatusGroup statusString : StatusGroup × Option (Error E)).2 =
        (((splitComma statusString).map termBody).find?
          (fun b => decide (unknownTerm b))).map Error.unknownStatus) ∧
    (parseStatusGroup "vendor,Vendor,zz".toList : StatusGroup × Option (Error Unit)).2 =
      some (Error.unknownStatus "Vendor".toList) := by
  refine ⟨fun E s => ?_, rfl⟩
  have h2 : (parseStatusGroup s : StatusGroup × Option (Error E)).2 =
      (((splitComma s).map termBody).find?
        (fun b => decide (unknownTerm b))).map Error.unknownStatus := by
    rw [parseStatusGroup, parseStatusLoop_eq, resolveTerms_error]
  refine ⟨?_, h2⟩
  rw [h2]
  simp [List.find?_eq_none]


/-! ## Import matching -/

/-- The test of the loop of `FindImport` is `entryMatches`. -/
theorem FindImportLoop_cons (item : StatusItem) (imp : filterImport) (rest : List filterImport)
    (i : Nat) :
    FindImportLoop item (imp :: rest) i =
      if entryMatches item imp then (some i, { imp with Added := true } :: rest)
      else ((FindImportLoop item rest (i + 1)).1, imp :: (FindImportLoop item rest (i + 1)).2) := by
  rw [FindImportLoop]
  simp only [hasPrefix_iff, entryMatches]
  by_cases h1 : imp.Pkg.Path = item.Local ∨ imp.Pkg.Path = item.Canonical
  · rw [if_pos h1, if_pos]
    rcases h1 with h | h
    · exact Or.inl h
    · exact Or.inr (Or.inl h)
  · rw [if_neg h1]
    push_neg at h1
    by_cases h2 : imp.Pkg.MatchTree = true ∧
        (imp.Pkg.Path <+: item.Local ∨ imp.Pkg.Path <+: item.Canonical)
    · rw [if_pos h2, if_pos (Or.inr (Or.inr h2))]
    · rw [if_neg h2, if_neg]
      rintro (h | h | h)
      · exact h1.1 h
      · exact h1.2 h
      · exact h2 h

/-- No entry matches: the loop returns `nil` and changes nothing. -/
theorem FindImportLoop_none (item : StatusItem) (l : List filterImport) (i : Nat)
    (h : ∀ e ∈ l, ¬ entryMatches item e) : FindImportLoop item l i = (none, l) := by
  induction l generalizing i with
  | nil => rfl
  | cons imp rest ih =>
    rw [FindImportLoop_cons, if_neg (h imp (List.mem_cons_self _ _)),
      ih _ (fun e he => h e (List.mem_cons_of_mem _ he))]

/-- The first matching entry is returned and marked, nothing else changes. -/
theorem FindImportLoop_first (item : StatusItem) (pre : List filterImport) (e : filterImport)
    (post : List filterImport) (i : Nat) (hpre : ∀ x ∈ pre, ¬ entryMatches item x)
    (he : entryMatches item e) :
    FindImportLoop item (pre ++ e :: post) i =
      (some (i + pre.length), pre ++ { e with Added := true } :: post) := by
  induction pre generalizing i with
  | nil => simp [FindImportLoop_cons, he]
  | cons imp rest ih =>
    rw [List.cons_append, FindImportLoop_cons, if_neg (hpre imp (List.mem_cons_self _ _)),
      ih _ (fun x hx => hpre x (List.mem_cons_of_mem _ hx))]
    simp [Nat.add_assoc, Nat.add_comm 1]

/-- A list has no matching entry or splits at its first matching entry. -/
theorem first_match_split (item : StatusItem) (l : List filterImport) :
    (∀ e ∈ l, ¬ entryMatches item e) ∨
      ∃ pre e post, l = pre ++ e :: post ∧ (∀ x ∈ pre, ¬ entryMatches item x) ∧
        entryMatches item e := by
  induction l with
  | nil => left; simp
  | cons imp rest ih =>
    by_cases h : entryMatches item imp
    · right; exact ⟨[], imp, rest, rfl, by simp, h⟩
    · rcases ih with ih | ⟨pre, e, post, rfl, hpre, he⟩
      · left
        intro x hx
        rcases List.mem_cons.1 hx with rfl | hx
        · exact h
        · exact ih x hx
      · right
        refine ⟨imp :: pre, e, post, rfl, ?_, he⟩
        intro x hx
        rcases List.mem_cons.1 hx with rfl | hx
        · exact h
        · exact hpre x hx

/-- The first matching entry of a list is at one position only. -/
theorem first_match_unique (item : StatusItem) (pre pre2 : List filterImport)
    (e e2 : filterImport) (post post2 : List filterImport)
    (hl : pre ++ e :: post = pre2 ++ e2 :: post2)
    (hpre : ∀ x ∈ pre, ¬ entryMatches item x) (he : entryMatches item e)
    (hpre2 : ∀ x ∈ pre2, ¬ entryMatches item x) (he2 : entryMatches item e2) :
    pre.length = pre2.length := by
  induction pre generalizing pre2 with
  | nil =>
    cases pre2 with
    | nil => rfl
    | cons b pre2 =>
      simp only [List.nil_append, List.cons_append, List.cons.injEq] at hl
      exact absurd (hl.1 ▸ he) (hpre2 b (List.mem_cons_self _ _))
  | cons a pre ih =>
    cases pre2 with
    | nil =>
      simp only [List.nil_append, List.cons_append, List.cons.injEq] at hl
      exact absurd (hl.1 ▸ he2) (hpre a (List.mem_cons_self _ _))
    | cons b pre2 =>
      simp only [List.cons_append, List.cons.injEq] at hl
      simp only [List.length_cons, Nat.add_right_cancel_iff]
      exact ih pre2 hl.2 (fun x hx => hpre x (List.mem_cons_of_mem _ hx))
        (fun x hx => hpre2 x (List.mem_cons_of_mem _ hx))

/-- C3: `FindImport` returns the first entry of the reference list, in its
original order, that matches the item by path equality or, for a tree
reference, by plain prefix, and returns `nil` exactly when no entry matches;
a tree reference `foo` matches the path `foobar`. -/
theorem FindImport_first_match :
    (∀ (f : filter) (item : StatusItem),
      (∀ i, (f.FindImport item).1 = some i ↔
        ∃ pre e post, f.Import = pre ++ e :: post ∧ pre.length = i ∧
          entryMatches item e ∧ ∀ x ∈ pre, ¬ entryMatches item x) ∧
      ((f.FindImport item).1 = none ↔ ∀ e ∈ f.Import, ¬ entryMatches item e)) ∧
    (filter.FindImport
        { Import := [{ Pkg := { Path := "a/pkg".toList, MatchTree := false } },
                     { Pkg := { Path := "foo".toList, MatchTree := true } },
                     { Pkg := { Path := "foobar".toList, MatchTree := false } }] }
        { Status := {}, Local := "foobar".toList, Canonical := "x/foobar".toList }).1 = some 1 := by
  refine ⟨fun f item => ?_, by decide⟩
  rcases first_match_split item f.Import with hno | ⟨pre, e, post, hl, hpre, he⟩
  · have hr : (f.FindImport item).1 = none := by
      simp [filter.FindImport, FindImportLoop_none item f.Import 0 hno]
    refine ⟨fun i => ?_, ?_⟩
    · rw [hr]
      constructor
      · intro h; cases h
      · rintro ⟨pre, e, post, hl, -, he, -⟩
        exact absurd he (hno e (by rw [hl]; simp))
    · exact ⟨fun _ => hno, fun _ => hr⟩
  · have hr : (f.FindImport item).1 = some pre.length := by
      simp [filter.FindImport, hl, FindImportLoop_first item pre e post 0 hpre he]
    refine ⟨fun i => ?_, ?_⟩
    · rw [hr]
      constructor
      · intro h
        exact ⟨pre, e, post, hl, (by simpa using h), he, hpre⟩
      · rintro ⟨pre2, e2, post2, hl2, hlen, he2, hpre2⟩
        rw [← hlen, first_match_unique item pre pre2 e e2 post post2 (hl.symm.trans hl2)
          hpre he hpre2 he2]
    · rw [hr]
      constructor
      · intro h; cases h
      · intro h
        exact absurd he (h e (by rw [hl]; simp))

/-- C4: `FindImport` sets the flag of the entry it returns and changes nothing
else, also when several entries match; when it returns `nil` the filter is
unchanged. -/
theorem FindImport_frame :
    (∀ (f : filter) (item : StatusItem),
      (∀ i, (f.FindImport item).1 = some i →
        ∃ pre e post, f.Import = pre ++ e :: post ∧ pre.length = i ∧
          (f.FindImport item).2 =
            { Status := f.Status,
              Import := pre ++ { Pkg := e.Pkg, Added := true } :: post }) ∧
      ((f.FindImport item).1 = none → (f.FindImport item).2 = f)) ∧
    (filter.FindImport
        { Import := [{ Pkg := { Path := "a".toList, MatchTree := false } },
                     { Pkg := { Path := "b".toList, MatchTree := true } },
                     { Pkg := { Path := "b/sub".toList, MatchTree := false } }] }
        { Status := {}, Local := "b/sub".toList, Canonical := "b/sub".toList }).2.Import =
      [{ Pkg := { Path := "a".toList, MatchTree := false }, Added := false },
       { Pkg := { Path := "b".toList, MatchTree := true }, Added := true },
       { Pkg := { Path := "b/sub".toList, MatchTree := false }, Added := false }] := by
  refine ⟨fun f item => ?_, by decide⟩
  rcases first_match_split item f.Import with hno | ⟨pre, e, post, hl, hpre, he⟩
  · have hr : f.FindImport item = (none, f) := by
      simp [filter.FindImport, FindImportLoop_none item f.Import 0 hno]
    rw [hr]
    exact ⟨fun i h => (by cases h), fun _ => rfl⟩
  · have hr : f.FindImport item =
        (some pre.length,
          { Status := f.Status, Import := pre ++ { Pkg := e.Pkg, Added := true } :: post }) := by
      simp [filter.FindImport, hl, FindImportLoop_first item pre e post 0 hpre he]
    rw [hr]
    exact ⟨fun i h => ⟨pre, e, post, hl, (by simpa using h), rfl⟩, fun h => (by cases h)⟩

/-- C5: a second call of `FindImport` with the same item returns the same
entry, or `nil` again, and leaves the filter as the first call left it. -/
theorem FindImport_idempotent (f : filter) (item : StatusItem) :
    (f.FindImport item).2.FindImport item = f.FindImport item := by
  rcases first_match_split item f.Import with hno | ⟨pre, e, post, hl, hpre, he⟩
  · have hr : f.FindImport item = (none, f) := by
      simp [filter.FindImport, FindImportLoop_none item f.Import 0 hno]
    rw [hr]
    exact hr
  · have hr : f.FindImport item =
        (some pre.length,
          { Status := f.Status, Import := pre ++ { Pkg := e.Pkg, Added := true } :: post }) := by
      simp [filter.FindImport, hl, FindImportLoop_first item pre e post 0 hpre he]
    rw [hr]
    have he2 : entryMatches item { Pkg := e.Pkg, Added := true } := he
    simp [filter.FindImport, FindImportLoop_first item pre _ post 0 hpre he2]


/-! ## The Default-Scope Fallback -/

theorem allSome_map {α β : Type} (l : List α) (f : α → Option β) (h : α → β)
    (hf : ∀ c ∈ l, f c = some (h c)) : allSome (l.map f) = some (l.map h) := by
  induction l with
  | nil => rfl
  | cons c l ih =>
    rw [List.map_cons, hf c (List.mem_cons_self _ _), allSome,
      ih (fun x hx => hf x (List.mem_cons_of_mem _ hx))]
    rfl

theorem widenedList_eq_map (list : List Status) (gs : List StatusGroup) :
    widenedList list gs = gs.map (widened list) := by
  induction gs with
  | nil => rfl
  | cons g gs ih => rw [widenedList, ih]; rfl

theorem anyAllNotLeaf_eq_false (gs : List StatusGroup) :
    anyAllNotLeaf gs = false ↔ ∀ c ∈ gs, hasAllNotLeaf c = false := by
  induction gs with
  | nil => simp [anyAllNotLeaf]
  | cons g gs ih => simp [anyAllNotLeaf, ih]

theorem depth_le_depthList (gs : List StatusGroup) (c : StatusGroup) (hc : c ∈ gs) :
    depth c ≤ depthList gs := by
  induction gs with
  | nil => cases hc
  | cons g gs ih =>
    rw [depthList]
    rcases List.mem_cons.1 hc with rfl | hc
    · exact le_max_left _ _
    · exact le_trans (ih hc) (le_max_right _ _)

theorem allNot_iff (ss : List Status) :
    ss.all (fun s => !(s.Not == false)) = ss.all (fun s => s.Not) := by
  congr 1
  funext s
  cases s.Not <;> rfl

/-- One call of `insertListToAllNot` on a childless group of only negated
predicates. -/
theorem insertListToAllNot_leaf_pos (fuel : Nat) (list ss : List Status) (a n : Bool)
    (h : ss.all (fun s => s.Not) = true) :
    insertListToAllNot (fuel + 1) (StatusGroup.mk ss [] a n) list =
      match insertListToAllNot fuel (StatusGroup.mk list [] false false) list with
      | none => none
      | some c => some (StatusGroup.mk ss [c] a n) := by
  rw [insertListToAllNot]
  simp only [StatusGroup.Group, StatusGroup.Status, StatusGroup.And, StatusGroup.Not,
    List.length_nil, if_true, allNot_iff, h, List.nil_append, statusGroupFromList_eq,
    List.map_cons, List.map_nil]
  cases insertListToAllNot fuel (StatusGroup.mk list [] false false) list <;> rfl

/-- One call of `insertListToAllNot` on a childless group with a predicate that
is not negated. -/
theorem insertListToAllNot_leaf_neg (fuel : Nat) (list ss : List Status) (a n : Bool)
    (h : ss.all (fun s => s.Not) = false) :
    insertListToAllNot (fuel + 1) (StatusGroup.mk ss [] a n) list =
      some (StatusGroup.mk ss [] a n) := by
  rw [insertListToAllNot]
  simp only [StatusGroup.Group, StatusGroup.Status, StatusGroup.And, StatusGroup.Not,
    List.length_nil, if_true, allNot_iff, h, Bool.false_eq_true, if_false, List.map_nil]
  rfl

/-- One call of `insertListToAllNot` on a group with children. -/
theorem insertListToAllNot_cons (fuel : Nat) (list ss : List Status) (c : StatusGroup)
    (cs : List StatusGroup) (a n : Bool) :
    insertListToAllNot (fuel + 1) (StatusGroup.mk ss (c :: cs) a n) list =
      match allSome ((c :: cs).map (fun x => insertListToAllNot fuel x list)) with
      | none => none
      | some gs => some (StatusGroup.mk ss gs a n) := by
  rw [insertListToAllNot]
  simp only [StatusGroup.Group, List.length_cons, Nat.add_one_ne_zero, if_false,
    StatusGroup.Status, StatusGroup.And, StatusGroup.Not]

/-- The appended child is left as it is when the list has a predicate that is
not negated. -/
theorem insertListToAllNot_child (fuel : Nat) (list : List Status)
    (h : ∃ s ∈ list, s.Not = false) :
    insertListToAllNot (fuel + 1) (StatusGroup.mk list [] false false) list =
      some (StatusGroup.mk list [] false false) := by
  obtain ⟨s, hs, hn⟩ := h
  apply insertListToAllNot_leaf_neg
  rw [List.all_eq_false]
  exact ⟨s, hs, by simp [hn]⟩

/-- With enough fuel `insertListToAllNot` returns the group `widened`
describes. -/
theorem insertListToAllNot_eq_widened (list : List Status) (h : ∃ s ∈ list, s.Not = false)
    (fuel : Nat) (g : StatusGroup) (hf : depth g + 1 ≤ fuel) :
    insertListToAllNot fuel g list = some (widened list g) := by
  induction fuel generalizing g with
  | zero => omega
  | succ fuel ih =>
    obtain ⟨ss, gs, a, n⟩ := g
    rw [depth] at hf
    cases gs with
    | nil =>
      cases hall : ss.all (fun s => s.Not)
      · rw [insertListToAllNot_leaf_neg _ _ _ _ _ hall, widened, hall]
        rfl
      · obtain ⟨k, rfl⟩ : ∃ k, fuel = k + 1 := ⟨fuel - 1, by omega⟩
        rw [insertListToAllNot_leaf_pos _ _ _ _ _ hall, insertListToAllNot_child k list h,
          widened, hall]
        rfl
    | cons c cs =>
      have hch : ∀ x ∈ c :: cs, insertListToAllNot fuel x list = some (widened list x) := by
        intro x hx
        have := depth_le_depthList _ _ hx
        exact ih x (by omega)
      have hmap := allSome_map (c :: cs) (fun x => insertListToAllNot fuel x list)
        (widened list) hch
      rw [insertListToAllNot_cons, hmap, widened, widenedList_eq_map]
      simp

/-- A tree without a childless group of only negated predicates is left as it
is, whatever the list. -/
theorem insertListToAllNot_fixed (list : List Status) (fuel : Nat) (g : StatusGroup)
    (hg : hasAllNotLeaf g = false) (hf : depth g ≤ fuel) :
    insertListToAllNot fuel g list = some g := by
  induction fuel generalizing g with
  | zero => obtain ⟨ss, gs, a, n⟩ := g; rw [depth] at hf; omega
  | succ fuel ih =>
    obtain ⟨ss, gs, a, n⟩ := g
    rw [depth] at hf
    rw [hasAllNotLeaf, Bool.or_eq_false_iff, anyAllNotLeaf_eq_false] at hg
    cases gs with
    | nil =>
      have hall : ss.all (fun s => s.Not) = false := by simpa using hg.1
      exact insertListToAllNot_leaf_neg _ _ _ _ _ hall
    | cons c cs =>
      have hch : ∀ x ∈ c :: cs, insertListToAllNot fuel x list = some (id x) := by
        intro x hx
        have := depth_le_depthList _ _ hx
        exact ih x (hg.2 x hx) (by omega)
      have hmap := allSome_map (c :: cs) (fun x => insertListToAllNot fuel x list) id hch
      rw [List.map_id] at hmap
      rw [insertListToAllNot_cons, hmap]

/-- With a list that has no predicate that is not negated, the recursion on a
childless group of only negated predicates never ends. -/
theorem insertListToAllNot_diverges (list : List Status) (hl : ∀ s ∈ list, s.Not = true)
    (ss : List Status) (hs : ∀ s ∈ ss, s.Not = true) (a n : Bool) (fuel : Nat) :
    insertListToAllNot fuel (StatusGroup.mk ss [] a n) list = none := by
  induction fuel generalizing ss a n with
  | zero => rfl
  | succ fuel ih =>
    have hall : ss.all (fun s => s.Not) = true := by
      rw [List.all_eq_true]
      exact hs
    rw [insertListToAllNot_leaf_pos _ _ _ _ _ hall, ih list hl false false]


theorem allSome_map_self {α : Type} (l : List α) (f : α → Option α)
    (h : allSome (l.map f) = some l) : ∀ x ∈ l, f x = some x := by
  induction l with
  | nil => intro x hx; cases hx
  | cons c l ih =>
    rw [List.map_cons] at h
    cases hc : f c with
    | none => rw [hc, allSome] at h; cases h
    | some c2 =>
      rw [hc, allSome] at h
      cases hl : allSome (l.map f) with
      | none => rw [hl] at h; cases h
      | some r =>
        rw [hl] at h
        simp only [Option.some.injEq, List.cons.injEq] at h
        obtain ⟨rfl, rfl⟩ := h
        intro x hx
        rcases List.mem_cons.1 hx with rfl | hx
        · exact hc
        · exact ih hl x hx

/-- A tree that `insertListToAllNot` returns as it was has no childless group
of only negated predicates. -/
theorem insertListToAllNot_changes (list : List Status) (fuel : Nat) (g : StatusGroup)
    (h : insertListToAllNot fuel g list = some g) : hasAllNotLeaf g = false := by
  induction fuel generalizing g with
  | zero => rw [insertListToAllNot] at h; cases h
  | succ fuel ih =>
    obtain ⟨ss, gs, a, n⟩ := g
    cases gs with
    | nil =>
      cases hall : ss.all (fun s => s.Not)
      · simp [hasAllNotLeaf, anyAllNotLeaf, hall, -List.all_eq_false]
      · rw [insertListToAllNot_leaf_pos _ _ _ _ _ hall] at h
        cases hc : insertListToAllNot fuel (StatusGroup.mk list [] false false) list with
        | none => rw [hc] at h; cases h
        | some c =>
          rw [hc] at h
          simp at h
    | cons c cs =>
      rw [insertListToAllNot_cons] at h
      cases hm : allSome ((c :: cs).map (fun x => insertListToAllNot fuel x list)) with
      | none => rw [hm] at h; cases h
      | some r =>
        rw [hm] at h
        simp only [Option.some.injEq, StatusGroup.mk.injEq, true_and, and_true] at h
        rw [h] at hm
        have hx := allSome_map_self _ _ hm
        rw [hasAllNotLeaf, Bool.or_eq_false_iff, anyAllNotLeaf_eq_false]
        exact ⟨rfl, fun x hxm => ih x (hx x hxm)⟩

/-- The group `widened` describes has no childless group of only negated
predicates, when the list has a predicate that is not negated. -/
theorem hasAllNotLeaf_widened (list : List Status) (h : ∃ s ∈ list, s.Not = false)
    (k : Nat) (g : StatusGroup) (hk : depth g ≤ k) : hasAllNotLeaf (widened list g) = false := by
  have hlist : list.all (fun s => s.Not) = false := by
    obtain ⟨s, hs, hn⟩ := h
    rw [List.all_eq_false]
    exact ⟨s, hs, by simp [hn]⟩
  induction k generalizing g with
  | zero => obtain ⟨ss, gs, a, n⟩ := g; rw [depth] at hk; omega
  | succ k ih =>
    obtain ⟨ss, gs, a, n⟩ := g
    rw [depth] at hk
    cases gs with
    | nil =>
      cases hall : ss.all (fun s => s.Not)
      · simp [widened, widenedList, hasAllNotLeaf, anyAllNotLeaf, hall, -List.all_eq_false]
      · simp [widened, widenedList, hasAllNotLeaf, anyAllNotLeaf, hall, hlist,
          -List.all_eq_false, -List.all_eq_true]
    | cons c cs =>
      rw [widened, widenedList_eq_map, hasAllNotLeaf, Bool.or_eq_false_iff,
        anyAllNotLeaf_eq_false]
      refine ⟨by simp, ?_⟩
      intro x hx
      simp only [List.isEmpty_cons, Bool.false_and, Bool.false_eq_true, if_false,
        List.append_nil, List.mem_map] at hx
      obtain ⟨y, hy, rfl⟩ := hx
      have := depth_le_depthList _ _ hy
      exact ih y (by omega)

/-- C6, the claim as stated fails: with the empty list the recursion on the
empty group never ends, so no bound on the depth of the recursion makes
`insertListToAllNot` return a group. -/
theorem insertListToAllNot_empty_list_diverges :
    ¬ ∃ fuel g2, insertListToAllNot fuel (StatusGroup.mk [] [] false false) [] = some g2 := by
  rintro ⟨fuel, g2, h⟩
  rw [insertListToAllNot_diverges [] (by simp) [] (by simp) false false fuel] at h
  cases h

/-- C6, amended: for every group tree and every list with at least one
predicate that is not negated, `insertListToAllNot` returns the tree in which
every group that has no children and only negated predicates got one new
child, the OR group of the list, not negated and childless, and nothing else
is changed. -/
theorem insertListToAllNot_appends (g : StatusGroup) (list : List Status)
    (h : ∃ s ∈ list, s.Not = false) :
    ∃ n, ∀ fuel, n ≤ fuel → insertListToAllNot fuel g list = some (widened list g) :=
  ⟨depth g + 1, fun fuel hf => insertListToAllNot_eq_widened list h fuel g hf⟩

/-- C6, amended, at the group of `^vendor` and the `normal` list. -/
theorem insertListToAllNot_appends_witness :
    (∃ s ∈ normal, s.Not = false) ∧
    ∃ n, ∀ fuel, n ≤ fuel →
      insertListToAllNot fuel
          (StatusGroup.mk [{ Location := StatusLocation.LocationVendor, Not := true }] []
            true false) normal =
        some (StatusGroup.mk [{ Location := StatusLocation.LocationVendor, Not := true }]
          [StatusGroup.mk normal [] false false] true false) :=
  ⟨by decide, insertListToAllNot_appends _ normal (by decide)⟩


/-! ## Matching after the fallback -/

theorem MatchGroups_eq_map (item : Status) (gs : List StatusGroup) :
    Status.MatchGroups item gs = gs.map (Status.MatchGroup item) := by
  induction gs with
  | nil => rfl
  | cons g gs ih => rw [Status.MatchGroups, ih]; rfl

/-- The OR group of the `normal` list matches the items of the four normal
locations. -/
theorem MatchGroup_normal (item : Status) :
    item.MatchGroup (StatusGroup.mk normal [] false false) = true ↔
      item.Location ∈ normalLocations := by
  obtain ⟨t, l, p, n⟩ := item
  cases l <;> simp [Status.MatchGroup, Status.MatchGroups, Status.Match, normal, normalLocations]

/-- C7: for a group with combinator AND, not negated, childless and with only
negated predicates, the group after the fallback with the `normal` list
matches an item exactly when the group matches it and the location of the
item is external, vendored, local or not-found; the filter parsed from
`+^vendor` and then widened rejects an item of location standard, which is
not vendored. -/
theorem fallback_normal_restricts :
    (∀ (g : StatusGroup) (item : StatusItem), g.And = true → g.Not = false → g.Group = [] →
      (∀ p ∈ g.Status, p.Not = true) →
      ∃ g2, (∀ fuel, 2 ≤ fuel → insertListToAllNot fuel g normal = some g2) ∧
        (item.Status.MatchGroup g2 = true ↔
          item.Status.MatchGroup g = true ∧ item.Status.Location ∈ normalLocations)) ∧
    (∀ (E : Type) (parse : GoString → GoString → Except E pkgspec.Pkg) (cgp : GoString)
      (item : StatusItem), item.Status.Location = StatusLocation.LocationStandard →
      (parseFilter parse cgp ["+^vendor".toList]).2 = none ∧
      ∃ sg, (∀ fuel, 3 ≤ fuel →
          insertListToAllNot fuel (parseFilter parse cgp ["+^vendor".toList]).1.Status normal =
            some sg) ∧
        filter.HasStatus
          { Status := sg, Import := (parseFilter parse cgp ["+^vendor".toList]).1.Import }
          item = false ∧
        item.Status.Match { Location := StatusLocation.LocationVendor, Not := true } = true) := by
  constructor
  · rintro ⟨ss, gs, a, n⟩ item hAnd hNot hGroup hS
    simp only [StatusGroup.And, StatusGroup.Not, StatusGroup.Group, StatusGroup.Status] at *
    subst hAnd hNot hGroup
    have hall : ss.all (fun s => s.Not) = true := by
      rw [List.all_eq_true]; exact hS
    refine ⟨StatusGroup.mk ss [StatusGroup.mk normal [] false false] true false, ?_, ?_⟩
    · intro fuel hf
      rw [insertListToAllNot_eq_widened normal (by decide) fuel _ (by simp [depth, depthList]; omega),
        widened, hall]
      rfl
    · rw [← MatchGroup_normal]
      simp [Status.MatchGroup, MatchGroups_eq_map]
  · intro E parse cgp item hloc
    refine ⟨rfl, StatusGroup.mk []
      [StatusGroup.mk [{ Location := StatusLocation.LocationVendor, Not := true }]
        [StatusGroup.mk normal [] false false] true false] false false, ?_, ?_, ?_⟩
    · intro fuel hf
      rw [insertListToAllNot_eq_widened normal (by decide) fuel _ (by
        show depth (StatusGroup.mk []
          [StatusGroup.mk [{ Location := StatusLocation.LocationVendor, Not := true }] []
            true false] false false) + 1 ≤ fuel
        simp [depth, depthList]; omega)]
      rfl
    · obtain ⟨⟨t, l, p, n⟩, loc, can⟩ := item
      simp only at hloc
      subst hloc
      simp [filter.HasStatus, Status.MatchGroup, Status.MatchGroups, Status.Match, normal]
    · obtain ⟨⟨t, l, p, n⟩, loc, can⟩ := item
      simp only at hloc
      subst hloc
      simp [Status.Match]

/-- C7 at the group of `^vendor` and an item of location local. -/
theorem fallback_normal_restricts_witness :
    ∃ g2, (∀ fuel, 2 ≤ fuel →
        insertListToAllNot fuel
          (StatusGroup.mk [{ Location := StatusLocation.LocationVendor, Not := true }] []
            true false) normal = some g2) ∧
      (Status.MatchGroup { Location := StatusLocation.LocationLocal } g2 = true ↔
        Status.MatchGroup { Location := StatusLocation.LocationLocal }
            (StatusGroup.mk [{ Location := StatusLocation.LocationVendor, Not := true }] []
              true false) = true ∧
          StatusLocation.LocationLocal ∈ normalLocations) :=
  fallback_normal_restricts.1
    (StatusGroup.mk [{ Location := StatusLocation.LocationVendor, Not := true }] [] true false)
    { Status := { Location := StatusLocation.LocationLocal }, Local := [], Canonical := [] }
    rfl rfl rfl (by decide)

/-! ## `parseFilter` and the fallback -/

/-- C8, the claim as stated fails: the filter `parseFilter` returns for the
token `+^vendor` contains a childless group of only negated predicates, and
the fallback with the `normal` list does not leave it unchanged. -/
theorem parseFilter_not_widened :
    (parseFilter (fun _ _ => Except.error ()) [] ["+^vendor".toList] :
      filter × Option (Error Unit)).2 = none ∧
    hasAllNotLeaf (parseFilter (fun _ _ => Except.error ()) [] ["+^vendor".toList] :
      filter × Option (Error Unit)).1.Status = true ∧
    ∀ fuel, insertListToAllNot fuel
        (parseFilter (fun _ _ => Except.error ()) [] ["+^vendor".toList] :
          filter × Option (Error Unit)).1.Status normal ≠
      some (parseFilter (fun _ _ => Except.error ()) [] ["+^vendor".toList] :
        filter × Option (Error Unit)).1.Status := by
  refine ⟨rfl, rfl, fun fuel h => ?_⟩
  have := insertListToAllNot_changes _ _ _ h
  exact absurd this (by decide)

/-- C8, amended: `parseFilter` does not apply the fallback; once the fallback
with the `normal` list has been applied to the top-level group of the filter
it returned on success, the resulting group contains no childless group of
only negated predicates, and a further application leaves it unchanged. -/
theorem parseFilter_then_fallback_widened {E : Type}
    (parse : GoString → GoString → Except E pkgspec.Pkg) (currentGoPath : GoString)
    (args : List GoString) (h : (parseFilter parse currentGoPath args).2 = none) :
    ∃ sg,
      (∃ n, ∀ fuel, n ≤ fuel →
        insertListToAllNot fuel (parseFilter parse currentGoPath args).1.Status normal =
          some sg) ∧
      hasAllNotLeaf sg = false ∧
      (∃ n, ∀ fuel, n ≤ fuel → insertListToAllNot fuel sg normal = some sg) := by
  have hn : ∃ s ∈ normal, s.Not = false := by decide
  have hleaf := hasAllNotLeaf_widened normal hn _
    (parseFilter parse currentGoPath args).1.Status (le_refl _)
  exact ⟨widened normal (parseFilter parse currentGoPath args).1.Status,
    ⟨_, fun fuel hf => insertListToAllNot_eq_widened normal hn fuel _ hf⟩, hleaf,
    ⟨_, fun fuel hf => insertListToAllNot_fixed normal fuel _ hleaf hf⟩⟩

/-- C8, amended, at the token `+^vendor`. -/
theorem parseFilter_then_fallback_widened_witness :
    (parseFilter (fun _ _ => Except.error ()) [] ["+^vendor".toList] :
      filter × Option (Error Unit)).2 = none ∧
    ∃ sg,
      (∃ n, ∀ fuel, n ≤ fuel →
        insertListToAllNot fuel
          (parseFilter (fun _ _ => Except.error ()) [] ["+^vendor".toList] :
            filter × Option (Error Unit)).1.Status normal = some sg) ∧
      hasAllNotLeaf sg = false ∧
      (∃ n, ∀ fuel, n ≤ fuel → insertListToAllNot fuel sg normal = some sg) :=
  ⟨rfl, parseFilter_then_fallback_widened (fun _ _ => Except.error ()) [] ["+^vendor".toList] rfl⟩


/-! ## Errors of `parseFilter` -/

/-- A token that fails on its own makes the loop return at once, with the
filter built so far. -/
theorem parseFilterLoop_cons_error {E : Type}
    (parse : GoString → GoString → Except E pkgspec.Pkg) (cgp : GoString) (f : filter)
    (a : GoString) (rest : List GoString) (e : Error E) (h : tokenError parse cgp a = some e) :
    parseFilterLoop parse cgp f (a :: rest) = (f, some e) := by
  rw [parseFilterLoop]
  unfold tokenError at h
  by_cases h0 : a = []
  · rw [if_pos h0] at h; cases h
  · have hlen : ¬ a.length = 0 := by simpa using h0
    rw [if_neg h0] at h
    rw [if_neg hlen]
    by_cases h1 : a.head? = some '+'
    · rw [if_pos h1] at h ⊢
      rw [List.drop_one]
      rcases hp : (parseStatusGroup (List.tail a) : StatusGroup × Option (Error E))
        with ⟨sg, _ | err⟩
      · rw [hp] at h; cases h
      · rw [hp] at h
        simp only [Option.some.injEq] at h
        subst h
        rfl
    · rw [if_neg h1] at h ⊢
      rcases hp : parse cgp a with err | pkg
      · rw [hp] at h
        simp only [Option.some.injEq] at h
        subst h
        rfl
      · rw [hp] at h; cases h

/-- A token that does not fail on its own makes the loop go on, from a filter
that does not depend on the tokens that follow. -/
theorem parseFilterLoop_cons_ok {E : Type}
    (parse : GoString → GoString → Except E pkgspec.Pkg) (cgp : GoString) (f : filter)
    (a : GoString) (h : tokenError parse cgp a = none) :
    ∃ f2, ∀ rest, parseFilterLoop parse cgp f (a :: rest) = parseFilterLoop parse cgp f2 rest := by
  unfold tokenError at h
  by_cases h0 : a = []
  · exact ⟨f, fun rest => by rw [parseFilterLoop, if_pos (by simp [h0])]⟩
  · have hlen : ¬ a.length = 0 := by simpa using h0
    rw [if_neg h0] at h
    by_cases h1 : a.head? = some '+'
    · rw [if_pos h1] at h
      rcases hp : (parseStatusGroup (List.tail a) : StatusGroup × Option (Error E))
        with ⟨sg, _ | err⟩
      · refine ⟨{ f with Status := StatusGroup.mk f.Status.Status (f.Status.Group ++ [sg])
                            f.Status.And f.Status.Not }, fun rest => ?_⟩
        rw [parseFilterLoop, if_neg hlen, if_pos h1, List.drop_one, hp]
      · rw [hp] at h; cases h
    · rw [if_neg h1] at h
      rcases hp : parse cgp a with err | pkg
      · rw [hp] at h; cases h
      · refine ⟨{ f with Import := f.Import ++ [{ Pkg := pkg }] }, fun rest => ?_⟩
        rw [parseFilterLoop, if_neg hlen, if_neg h1, hp]

/-- The error of the loop of `parseFilter` is the error of the first token
that fails on its own. -/
theorem parseFilterLoop_error {E : Type}
    (parse : GoString → GoString → Except E pkgspec.Pkg) (cgp : GoString) (f : filter)
    (args : List GoString) :
    (parseFilterLoop parse cgp f args).2 = args.findSome? (tokenError parse cgp) := by
  induction args generalizing f with
  | nil => rfl
  | cons a rest ih =>
    rw [List.findSome?_cons]
    cases h : tokenError parse cgp a with
    | none =>
      obtain ⟨f2, hf2⟩ := parseFilterLoop_cons_ok parse cgp f a h
      rw [hf2, ih]
    | some e => rw [parseFilterLoop_cons_error parse cgp f a rest e h]

/-- After tokens that do not fail, a failing token makes the loop return the
filter built from the tokens before it, with the error of the failing token. -/
theorem parseFilterLoop_before_error {E : Type}
    (parse : GoString → GoString → Except E pkgspec.Pkg) (cgp : GoString) (f : filter)
    (pre : List GoString) (a : GoString) (post : List GoString) (e : Error E)
    (hpre : ∀ t ∈ pre, tokenError parse cgp t = none) (ha : tokenError parse cgp a = some e) :
    parseFilterLoop parse cgp f (pre ++ a :: post) = ((parseFilterLoop parse cgp f pre).1, some e) ∧
      (parseFilterLoop parse cgp f pre).2 = none := by
  induction pre generalizing f with
  | nil => exact ⟨parseFilterLoop_cons_error parse cgp f a post e ha, rfl⟩
  | cons t pre ih =>
    obtain ⟨f2, hf2⟩ := parseFilterLoop_cons_ok parse cgp f t (hpre t (List.mem_cons_self _ _))
    rw [List.cons_append, hf2, hf2]
    exact ih f2 (fun x hx => hpre x (List.mem_cons_of_mem _ hx))

/-- A list on which `findSome?` succeeds splits at the first element on which
the function succeeds. -/
theorem findSome_split {α β : Type} (f : α → Option β) (l : List α) (b : β)
    (h : l.findSome? f = some b) :
    ∃ pre a post, l = pre ++ a :: post ∧ (∀ t ∈ pre, f t = none) ∧ f a = some b := by
  induction l with
  | nil => cases h
  | cons x l ih =>
    rw [List.findSome?_cons] at h
    cases hx : f x with
    | some y =>
      rw [hx] at h
      simp only [Option.some.injEq] at h
      subst h
      exact ⟨[], x, l, rfl, by simp, hx⟩
    | none =>
      rw [hx] at h
      obtain ⟨pre, a, post, rfl, hpre, ha⟩ := ih h
      refine ⟨x :: pre, a, post, rfl, ?_, ha⟩
      intro t ht
      rcases List.mem_cons.1 ht with rfl | ht
      · exact hx
      · exact hpre t ht

/-- C9, the claim as stated fails: on the tokens `a/pkg`, `+vendor`, `+zzz`
the filter returned with the error carries the entry and the status group
built from the first two tokens. -/
theorem parseFilter_error_keeps_built_filter :
    (parseFilter (fun _ p => (Except.ok { Path := p, MatchTree := false } : Except Unit pkgspec.Pkg))
        [] ["a/pkg".toList, "+vendor".toList, "+zzz".toList]) =
      ({ Status := StatusGroup.mk []
            [StatusGroup.mk [{ Location := StatusLocation.LocationVendor }] [] true false]
            false false,
         Import := [{ Pkg := { Path := "a/pkg".toList, MatchTree := false }, Added := false }] },
        some (Error.unknownStatus "zzz".toList)) := by
  rfl

/-- C9, amended: when `parseFilter` returns an error, the filter returned with
it is the partial filter, the one `parseFilter` returns without error for the
tokens before the failing token; the error is that of the failing token. -/
theorem parseFilter_error_returns_built_filter {E : Type}
    (parse : GoString → GoString → Except E pkgspec.Pkg) (currentGoPath : GoString)
    (args : List GoString) (e : Error E) (h : (parseFilter parse currentGoPath args).2 = some e) :
    ∃ pre a post, args = pre ++ a :: post ∧
      parseFilter parse currentGoPath pre = ((parseFilter parse currentGoPath args).1, none) ∧
      (parseFilter parse currentGoPath [a]).2 = some e := by
  rw [parseFilter, parseFilterLoop_error] at h
  obtain ⟨pre, a, post, rfl, hpre, ha⟩ := findSome_split _ _ _ h
  refine ⟨pre, a, post, rfl, ?_, ?_⟩
  · have hp := parseFilterLoop_before_error parse currentGoPath { Import := [] } pre a post e hpre ha
    rw [parseFilter, parseFilter, hp.1]
    exact Prod.ext rfl hp.2
  · rw [parseFilter, parseFilterLoop_error]
    simp [ha]

/-- C9, amended, at the tokens `a/pkg`, `+vendor`, `+zzz`. -/
theorem parseFilter_error_returns_built_filter_witness :
    (parseFilter (fun _ p => (Except.ok { Path := p, MatchTree := false } : Except Unit pkgspec.Pkg))
        [] ["a/pkg".toList, "+vendor".toList, "+zzz".toList]).2 =
      some (Error.unknownStatus "zzz".toList) ∧
    ∃ pre a post, ["a/pkg".toList, "+vendor".toList, "+zzz".toList] = pre ++ a :: post ∧
      parseFilter (fun _ p => (Except.ok { Path := p, MatchTree := false } : Except Unit pkgspec.Pkg))
          [] pre =
        ((parseFilter
            (fun _ p => (Except.ok { Path := p, MatchTree := false } : Except Unit pkgspec.Pkg))
            [] ["a/pkg".toList, "+vendor".toList, "+zzz".toList]).1, none) ∧
      (parseFilter (fun _ p => (Except.ok { Path := p, MatchTree := false } : Except Unit pkgspec.Pkg))
          [] [a]).2 = some (Error.unknownStatus "zzz".toList) :=
  ⟨rfl, parseFilter_error_returns_built_filter _ [] _ _ rfl⟩

/-- C10: `parseFilter` fails exactly when some non-empty token fails on its
own, a status token with an unknown keyword or a token the reference parser
rejects; the error is that of the first such token, and the tokens after it
have no influence on the result. -/
theorem parseFilter_first_error {E : Type}
    (parse : GoString → GoString → Except E pkgspec.Pkg) (currentGoPath : GoString)
    (args : List GoString) :
    ((parseFilter parse currentGoPath args).2 ≠ none ↔
      ∃ a ∈ args, a ≠ [] ∧ tokenError parse currentGoPath a ≠ none) ∧
    (parseFilter parse currentGoPath args).2 = args.findSome? (tokenError parse currentGoPath) ∧
    (∀ a, tokenError parse currentGoPath a = (parseFilter parse currentGoPath [a]).2) ∧
    (∀ pre a post post2, args = pre ++ a :: post →
      (∀ t ∈ pre, tokenError parse currentGoPath t = none) →
      tokenError parse currentGoPath a ≠ none →
      parseFilter parse currentGoPath (pre ++ a :: post2) = parseFilter parse currentGoPath args) := by
  have herr : ∀ l, (parseFilter parse currentGoPath l).2 =
      l.findSome? (tokenError parse currentGoPath) :=
    fun l => parseFilterLoop_error parse currentGoPath _ l
  refine ⟨?_, herr args, fun a => ?_, ?_⟩
  · rw [herr, Ne, List.findSome?_eq_none_iff]
    push_neg
    constructor
    · rintro ⟨a, ha, hne⟩
      refine ⟨a, ha, ?_, hne⟩
      rintro rfl
      exact hne (by simp [tokenError])
    · rintro ⟨a, ha, -, hne⟩
      exact ⟨a, ha, hne⟩
  · rw [herr, List.findSome?_cons]
    cases tokenError parse currentGoPath a <;> rfl
  · rintro pre a post post2 rfl hpre ha
    obtain ⟨e, he⟩ := Option.ne_none_iff_exists'.1 ha
    rw [parseFilter, parseFilter,
      (parseFilterLoop_before_error parse currentGoPath _ pre a post e hpre he).1,
      (parseFilterLoop_before_error parse currentGoPath _ pre a post2 e hpre he).1]

/-! ## The filter `parseFilter` builds -/

/-- The empty token is skipped. -/
theorem parseFilterLoop_cons_nil {E : Type}
    (parse : GoString → GoString → Except E pkgspec.Pkg) (cgp : GoString) (f : filter)
    (rest : List GoString) :
    parseFilterLoop parse cgp f ([] :: rest) = parseFilterLoop parse cgp f rest := by
  rw [parseFilterLoop, if_pos List.length_nil]

/-- A status token that parses appends its group to the children of the
top-level group. -/
theorem parseFilterLoop_cons_status {E : Type}
    (parse : GoString → GoString → Except E pkgspec.Pkg) (cgp : GoString) (f : filter)
    (a : GoString) (rest : List GoString) (h1 : a.head? = some '+')
    (hp : (parseStatusGroup a.tail : StatusGroup × Option (Error E)).2 = none) :
    parseFilterLoop parse cgp f (a :: rest) =
      parseFilterLoop parse cgp
        { f with Status := StatusGroup.mk f.Status.Status
                    (f.Status.Group ++ [(parseStatusGroup a.tail : StatusGroup × Option (Error E)).1])
                    f.Status.And f.Status.Not } rest := by
  have hlen : ¬ a.length = 0 := by
    cases a with
    | nil => cases h1
    | cons c a => simp
  rw [parseFilterLoop, if_neg hlen, if_pos h1, List.drop_one]
  rcases hq : (parseStatusGroup (List.tail a) : StatusGroup × Option (Error E)) with ⟨sg, _ | err⟩
  · rfl
  · rw [hq] at hp; cases hp

/-- A reference token that parses appends its entry to the reference list. -/
theorem parseFilterLoop_cons_reference {E : Type}
    (parse : GoString → GoString → Except E pkgspec.Pkg) (cgp : GoString) (f : filter)
    (a : GoString) (rest : List GoString) (pkg : pkgspec.Pkg) (h0 : a ≠ [])
    (h1 : a.head? ≠ some '+') (hp : parse cgp a = Except.ok pkg) :
    parseFilterLoop parse cgp f (a :: rest) =
      parseFilterLoop parse cgp
        { f with Import := f.Import ++ [{ Pkg := pkg, Added := false }] } rest := by
  have hlen : ¬ a.length = 0 := by simpa using h0
  rw [parseFilterLoop, if_neg hlen, if_neg h1, hp]

/-- The filter the loop of `parseFilter` returns without error: the groups of
the status tokens appended to the children of the top-level group, the entries
of the reference tokens appended to the reference list. -/
theorem parseFilterLoop_shape {E : Type}
    (parse : GoString → GoString → Except E pkgspec.Pkg) (cgp : GoString) (f : filter)
    (args : List GoString) (h : (parseFilterLoop parse cgp f args).2 = none) :
    (parseFilterLoop parse cgp f args).1.Status =
        StatusGroup.mk f.Status.Status
          (f.Status.Group ++ (statusTokens args).map
            (fun a => (parseStatusGroup a.tail : StatusGroup × Option (Error E)).1))
          f.Status.And f.Status.Not ∧
      ∃ entries, (parseFilterLoop parse cgp f args).1.Import = f.Import ++ entries ∧
        List.Forall₂ (fun a e => parse cgp a = Except.ok e.Pkg ∧ e.Added = false)
          (referenceTokens args) entries := by
  induction args generalizing f with
  | nil =>
    obtain ⟨st, imp⟩ := f
    obtain ⟨ss, gs, a, n⟩ := st
    exact ⟨by simp [parseFilterLoop, statusTokens, StatusGroup.Status, StatusGroup.Group,
      StatusGroup.And, StatusGroup.Not], [], by simp [parseFilterLoop], by simp [referenceTokens]⟩
  | cons a rest ih =>
    have herr := parseFilterLoop_error parse cgp f (a :: rest)
    rw [h, List.findSome?_cons] at herr
    cases hte : tokenError parse cgp a with
    | some e => rw [hte] at herr; cases herr
    | none =>
      by_cases h0 : a = []
      · subst h0
        rw [parseFilterLoop_cons_nil] at h ⊢
        have := ih f h
        simpa [statusTokens, referenceTokens] using this
      · by_cases h1 : a.head? = some '+'
        · have hp : (parseStatusGroup a.tail : StatusGroup × Option (Error E)).2 = none := by
            simpa [tokenError, h0, h1] using hte
          rw [parseFilterLoop_cons_status parse cgp f a rest h1 hp] at h ⊢
          obtain ⟨hs, entries, hi, hf⟩ := ih _ h
          refine ⟨?_, entries, ?_, ?_⟩
          · rw [hs]
            simp [statusTokens, h1, StatusGroup.Status, StatusGroup.Group, StatusGroup.And,
              StatusGroup.Not]
          · rw [hi]
          · simpa [referenceTokens, h1] using hf
        · rcases hp : parse cgp a with err | pkg
          · simp [tokenError, h0, h1, hp] at hte
          · rw [parseFilterLoop_cons_reference parse cgp f a rest pkg h0 h1 hp] at h ⊢
            obtain ⟨hs, entries, hi, hf⟩ := ih _ h
            refine ⟨?_, { Pkg := pkg, Added := false } :: entries, ?_, ?_⟩
            · rw [hs]
              simp [statusTokens, h1]
            · rw [hi]; simp
            · have hr : referenceTokens (a :: rest) = a :: referenceTokens rest := by
                simp [referenceTokens, h0, h1]
              rw [hr]
              exact List.Forall₂.cons ⟨hp, rfl⟩ hf

/-- Removing the empty tokens does not change what the loop of `parseFilter`
returns. -/
theorem parseFilterLoop_filter_nonempty {E : Type}
    (parse : GoString → GoString → Except E pkgspec.Pkg) (cgp : GoString) (f : filter)
    (args : List GoString) :
    parseFilterLoop parse cgp f (args.filter (fun a => decide (a ≠ []))) =
      parseFilterLoop parse cgp f args := by
  induction args generalizing f with
  | nil => rfl
  | cons a rest ih =>
    by_cases h0 : a = []
    · subst h0
      rw [parseFilterLoop_cons_nil]
      simpa using ih f
    · have hf : (a :: rest).filter (fun a => decide (a ≠ [])) =
          a :: rest.filter (fun a => decide (a ≠ [])) := by
        simp [h0]
      rw [hf]
      cases hte : tokenError parse cgp a with
      | some e =>
        rw [parseFilterLoop_cons_error parse cgp f a _ e hte,
          parseFilterLoop_cons_error parse cgp f a _ e hte]
      | none =>
        obtain ⟨f2, hf2⟩ := parseFilterLoop_cons_ok parse cgp f a hte
        rw [hf2, hf2]
        exact ih f2

/-- C11: when `parseFilter` succeeds, the top-level group of the filter has
combinator OR, is not negated, has no predicates, and its children are the
groups `parseStatusGroup` returns for the text after the `+` of each status
token, one child per status token, in argument order. -/
theorem parseFilter_status_children {E : Type}
    (parse : GoString → GoString → Except E pkgspec.Pkg) (currentGoPath : GoString)
    (args : List GoString) (h : (parseFilter parse currentGoPath args).2 = none) :
    (parseFilter parse currentGoPath args).1.Status =
        StatusGroup.mk []
          ((statusTokens args).map
            (fun a => (parseStatusGroup a.tail : StatusGroup × Option (Error E)).1))
          false false ∧
      ∀ a ∈ statusTokens args,
        (parseStatusGroup a.tail : StatusGroup × Option (Error E)).2 = none := by
  constructor
  · have := (parseFilterLoop_shape parse currentGoPath { Import := [] } args h).1
    rw [parseFilter, this]
    rfl
  · intro a ha
    rw [parseFilter, parseFilterLoop_error, List.findSome?_eq_none_iff] at h
    simp only [statusTokens, List.mem_filter, decide_eq_true_eq] at ha
    have hte := h a ha.1
    have h0 : a ≠ [] := by
      rintro rfl
      cases ha.2
    simpa [tokenError, h0, ha.2] using hte

/-- C11 on the tokens `+vendor`, `a/pkg`, the empty token and `+^std,all`. -/
theorem parseFilter_status_children_witness :
    (parseFilter (fun _ p => (Except.ok { Path := p, MatchTree := false } : Except Unit pkgspec.Pkg))
        [] ["+vendor".toList, "a/pkg".toList, [], "+^std,all".toList]).2 = none ∧
    (parseFilter (fun _ p => (Except.ok { Path := p, MatchTree := false } : Except Unit pkgspec.Pkg))
        [] ["+vendor".toList, "a/pkg".toList, [], "+^std,all".toList]).1.Status =
      StatusGroup.mk []
        [StatusGroup.mk [{ Location := StatusLocation.LocationVendor }] [] true false,
         StatusGroup.mk [{ Location := StatusLocation.LocationStandard, Not := true }]
           [StatusGroup.mk all [] false false] true false]
        false false :=
  ⟨rfl, (parseFilter_status_children
    (fun _ p => (Except.ok { Path := p, MatchTree := false } : Except Unit pkgspec.Pkg))
    [] ["+vendor".toList, "a/pkg".toList, [], "+^std,all".toList] rfl).1⟩

/-- C12: when `parseFilter` succeeds, the reference list of the filter has one
entry per non-empty token that does not begin with `+`, in argument order,
each with the package `pkgspec.Parse` returned for the token and the given
base path and with `Added` false; removing the empty tokens does not change
the result. -/
theorem parseFilter_import_entries {E : Type}
    (parse : GoString → GoString → Except E pkgspec.Pkg) (currentGoPath : GoString)
    (args : List GoString) (h : (parseFilter parse currentGoPath args).2 = none) :
    List.Forall₂ (fun a e => parse currentGoPath a = Except.ok e.Pkg ∧ e.Added = false)
        (referenceTokens args) (parseFilter parse currentGoPath args).1.Import ∧
      parseFilter parse currentGoPath (args.filter (fun a => decide (a ≠ []))) =
        parseFilter parse currentGoPath args := by
  constructor
  · obtain ⟨entries, hi, hf⟩ := (parseFilterLoop_shape parse currentGoPath { Import := [] } args h).2
    rw [parseFilter, hi]
    simpa using hf
  · exact parseFilterLoop_filter_nonempty parse currentGoPath _ args

/-- C12 on the tokens `a/pkg`, the empty token, `+vendor` and `b/sub`. -/
theorem parseFilter_import_entries_witness :
    (parseFilter (fun _ p => (Except.ok { Path := p, MatchTree := false } : Except Unit pkgspec.Pkg))
        [] ["a/pkg".toList, [], "+vendor".toList, "b/sub".toList]).2 = none ∧
    (List.Forall₂
        (fun a e =>
          (fun _ p => (Except.ok { Path := p, MatchTree := false } : Except Unit pkgspec.Pkg))
            ([] : GoString) a = Except.ok e.Pkg ∧ e.Added = false)
        (referenceTokens ["a/pkg".toList, [], "+vendor".toList, "b/sub".toList])
        (parseFilter
          (fun _ p => (Except.ok { Path := p, MatchTree := false } : Except Unit pkgspec.Pkg))
          [] ["a/pkg".toList, [], "+vendor".toList, "b/sub".toList]).1.Import ∧
      parseFilter (fun _ p => (Except.ok { Path := p, MatchTree := false } : Except Unit pkgspec.Pkg))
          [] (["a/pkg".toList, [], "+vendor".toList, "b/sub".toList].filter
            (fun a => decide (a ≠ []))) =
        parseFilter (fun _ p => (Except.ok { Path := p, MatchTree := false } : Except Unit pkgspec.Pkg))
          [] ["a/pkg".toList, [], "+vendor".toList, "b/sub".toList]) :=
  ⟨rfl, parseFilter_import_entries
    (fun _ p => (Except.ok { Path := p, MatchTree := false } : Except Unit pkgspec.Pkg))
    [] ["a/pkg".toList, [], "+vendor".toList, "b/sub".toList] rfl⟩

/-! ## The fixed lists -/

/-- C13: the OR group of the `all` list matches an item exactly when its
location is standard, external, vendored, local or not-found; the one of
`outside` exactly when its location is external or its presence is missing;
the one of `normal` exactly when its location is external, vendored, local or
not-found. -/
theorem list_groups_match (item : StatusItem) :
    (item.Status.MatchGroup (statusGroupFromList all false false) = true ↔
      item.Status.Location ∈ allLocations) ∧
    (item.Status.MatchGroup (statusGroupFromList outside false false) = true ↔
      item.Status.Location = StatusLocation.LocationExternal ∨
        item.Status.Presence = StatusPresence.PresenceMissing) ∧
    (item.Status.MatchGroup (statusGroupFromList normal false false) = true ↔
      item.Status.Location ∈ normalLocations) := by
  obtain ⟨⟨t, l, p, n⟩, loc, can⟩ := item
  simp only [statusGroupFromList_eq]
  refine ⟨?_, ?_, ?_⟩
  · cases l <;>
      simp [Status.MatchGroup, Status.MatchGroups, Status.Match, all, allLocations]
  · cases l <;> cases p <;>
      simp [Status.MatchGroup, Status.MatchGroups, Status.Match, outside]
  · cases l <;>
      simp [Status.MatchGroup, Status.MatchGroups, Status.Match, normal, normalLocations]

/-! ## The shape of parsed status groups -/

/-- The result of the resolution of a list of terms that all resolve. -/
theorem resolveTerms_shape {E : Type} (sg : StatusGroup) (ts : List GoString)
    (h : (resolveTerms sg ts : StatusGroup × Option (Error E)).2 = none) :
    (resolveTerms sg ts : StatusGroup × Option (Error E)).1 =
      StatusGroup.mk (sg.Status ++ ts.filterMap termPredicate)
        (sg.Group ++ ts.filterMap termListGroup) sg.And sg.Not := by
  induction ts generalizing sg with
  | nil =>
    obtain ⟨ss, gs, a, n⟩ := sg
    simp [resolveTerms, StatusGroup.Status, StatusGroup.Group, StatusGroup.And, StatusGroup.Not]
  | cons t ts ih =>
    rw [resolveTerms] at h ⊢
    rcases hk : resolveKeyword (termBody t) with _ | ⟨name, p | l⟩
    · rw [hk] at h; cases h
    · rw [hk] at h
      simp only [] at h ⊢
      rw [ih _ h]
      simp [termPredicate, termListGroup, hk, StatusGroup.Status, StatusGroup.Group,
        StatusGroup.And, StatusGroup.Not]
    · rw [hk] at h
      simp only [] at h ⊢
      rw [ih _ h]
      simp [termPredicate, termListGroup, hk, StatusGroup.Status, StatusGroup.Group,
        StatusGroup.And, StatusGroup.Not]

/-- The child group of a list keyword: an OR group without children whose
predicates are one of the fixed lists, none negated. -/
theorem termListGroup_shape (t : GoString) (c : StatusGroup) (h : termListGroup t = some c) :
    c.And = false ∧ c.Group = [] ∧ c.Not = termNegated t ∧
      (c.Status = all ∨ c.Status = normal ∨ c.Status = outside) ∧
      ∀ p ∈ c.Status, p.Not = false := by
  unfold termListGroup at h
  rcases hk : resolveKeyword (termBody t) with _ | ⟨name, p | l⟩
  · rw [hk] at h; cases h
  · rw [hk] at h; cases h
  · rw [hk] at h
    simp only [Option.some.injEq] at h
    subst h
    have hm := List.mem_of_find?_eq_some hk
    simp only [keywordTable, List.mem_cons, Prod.mk.injEq, List.mem_singleton, reduceCtorEq,
      and_false, false_or, Sum.inr.injEq, List.not_mem_nil, or_false] at hm
    refine ⟨rfl, rfl, rfl, ?_, ?_⟩
    · rcases hm with ⟨_, rfl⟩ | ⟨_, rfl⟩ | ⟨_, rfl⟩ <;> simp [StatusGroup.Status]
    · rcases hm with ⟨_, rfl⟩ | ⟨_, rfl⟩ | ⟨_, rfl⟩ <;>
        simp [StatusGroup.Status, all, normal, outside]

/-- C14: when `parseStatusGroup` succeeds, the group it returns uses AND and
is not negated; its predicates are the atomic-keyword terms, in order; its
children are the list-keyword terms, in order, and each child uses OR, has as
predicates one of the fixed lists with none negated, has no children, and is
negated exactly when its term began with `^`. -/
theorem parseStatusGroup_shape {E : Type} (statusString : GoString)
    (h : (parseStatusGroup statusString : StatusGroup × Option (Error E)).2 = none) :
    (parseStatusGroup statusString : StatusGroup × Option (Error E)).1 =
        StatusGroup.mk ((splitComma statusString).filterMap termPredicate)
          ((splitComma statusString).filterMap termListGroup) true false ∧
      (∀ t ∈ splitComma statusString,
        (termPredicate t).isSome = true ∧ termListGroup t = none ∨
          termPredicate t = none ∧ (termListGroup t).isSome = true) ∧
      ∀ t c, termListGroup t = some c →
        c.And = false ∧ c.Group = [] ∧ c.Not = termNegated t ∧
          (c.Status = all ∨ c.Status = normal ∨ c.Status = outside) ∧
          ∀ p ∈ c.Status, p.Not = false := by
  rw [parseStatusGroup, parseStatusLoop_eq] at h ⊢
  refine ⟨?_, ?_, termListGroup_shape⟩
  · rw [resolveTerms_shape _ _ h]
    simp [StatusGroup.Status, StatusGroup.Group, StatusGroup.And, StatusGroup.Not]
  · intro t ht
    have herr := resolveTerms_error (E := E) (StatusGroup.mk [] [] true false)
      (splitComma statusString)
    rw [h] at herr
    have hnone : ((splitComma statusString).map termBody).find?
        (fun b => decide (unknownTerm b)) = none := by
      cases hf : ((splitComma statusString).map termBody).find?
          (fun b => decide (unknownTerm b)) with
      | none => rfl
      | some b => rw [hf] at herr; cases herr
    rw [List.find?_eq_none] at hnone
    have hu : ¬ unknownTerm (termBody t) := by
      simpa using hnone (termBody t) (List.mem_map_of_mem _ ht)
    rw [← resolveKeyword_eq_none] at hu
    rcases hk : resolveKeyword (termBody t) with _ | ⟨name, p | l⟩
    · exact absurd hk hu
    · left; simp [termPredicate, termListGroup, hk]
    · right; simp [termPredicate, termListGroup, hk]

/-- C14 on the expression `^vendor,all,program,^outside`. -/
theorem parseStatusGroup_shape_witness :
    (parseStatusGroup "^vendor,all,program,^outside".toList :
      StatusGroup × Option (Error Unit)).2 = none ∧
    (parseStatusGroup "^vendor,all,program,^outside".toList :
      StatusGroup × Option (Error Unit)).1 =
      StatusGroup.mk
        [{ Location := StatusLocation.LocationVendor, Not := true },
         { Typ := StatusType.TypeProgram }]
        [StatusGroup.mk all [] false false, StatusGroup.mk outside [] false true] true false :=
  ⟨rfl, ((parseStatusGroup_shape (E := Unit) "^vendor,all,program,^outside".toList rfl).1).trans
    rfl⟩

/-! ## The empty term -/

/-- C15: an empty status term never fails: it resolves to the first keyword,
`external`, and the term `^` to the negated `external`, at every position of
an expression; the token `+` parses to a group whose only predicate is the
location external, not negated. -/
theorem empty_term_resolves_external :
    resolveKeyword [] =
      some ("external".toList, Sum.inl { Location := StatusLocation.LocationExternal }) ∧
    (∀ (E : Type) (sg : StatusGroup),
      (parseStatusTerm sg [] : Except (Error E) StatusGroup) =
          Except.ok (StatusGroup.mk
            (sg.Status ++ [{ Location := StatusLocation.LocationExternal }])
            sg.Group sg.And sg.Not) ∧
        (parseStatusTerm sg "^".toList : Except (Error E) StatusGroup) =
          Except.ok (StatusGroup.mk
            (sg.Status ++ [{ Location := StatusLocation.LocationExternal, Not := true }])
            sg.Group sg.And sg.Not)) ∧
    (∀ (E : Type), (parseStatusGroup [] : StatusGroup × Option (Error E)) =
      (StatusGroup.mk [{ Location := StatusLocation.LocationExternal }] [] true false, none)) ∧
    (∀ (E : Type), (parseStatusGroup "vendor,".toList : StatusGroup × Option (Error E)) =
      (StatusGroup.mk [{ Location := StatusLocation.LocationVendor },
          { Location := StatusLocation.LocationExternal }] [] true false, none)) ∧
    (∀ (E : Type), (parseStatusGroup "^".toList : StatusGroup × Option (Error E)) =
      (StatusGroup.mk [{ Location := StatusLocation.LocationExternal, Not := true }] []
        true false, none)) ∧
    (∀ (E : Type) (parse : GoString → GoString → Except E pkgspec.Pkg) (cgp : GoString),
      parseFilter parse cgp ["+".toList] =
        ({ Status := StatusGroup.mk []
              [StatusGroup.mk [{ Location := StatusLocation.LocationExternal }] [] true false]
              false false,
           Import := [] }, none)) := by
  refine ⟨by decide, fun E sg => ⟨rfl, rfl⟩, fun E => rfl, fun E => rfl, fun E => rfl,
    fun E parse cgp => rfl⟩

/-! ## The fallback on keyword-list groups, termination and idempotence -/

/-- C16: the fallback, with any list, leaves the OR group built from
`outside`, `normal` or `all` unchanged, whatever its negation flag. -/
theorem insertListToAllNot_list_group (not : Bool) (list : List Status) (fuel : Nat) :
    insertListToAllNot (fuel + 1) (statusGroupFromList outside false not) list =
        some (statusGroupFromList outside false not) ∧
    insertListToAllNot (fuel + 1) (statusGroupFromList normal false not) list =
        some (statusGroupFromList normal false not) ∧
    insertListToAllNot (fuel + 1) (statusGroupFromList all false not) list =
        some (statusGroupFromList all false not) := by
  simp only [statusGroupFromList_eq]
  exact ⟨insertListToAllNot_leaf_neg _ _ _ _ _ (by decide),
    insertListToAllNot_leaf_neg _ _ _ _ _ (by decide),
    insertListToAllNot_leaf_neg _ _ _ _ _ (by decide)⟩

/-- C17: when the list has a predicate that is not negated,
`insertListToAllNot` returns on every group tree, within a recursion depth of
the depth of the tree plus one; the call on the child just appended appends
nothing further. -/
theorem insertListToAllNot_terminates (g : StatusGroup) (list : List Status)
    (h : ∃ s ∈ list, s.Not = false) :
    (∀ fuel, depth g + 1 ≤ fuel → (insertListToAllNot fuel g list).isSome = true) ∧
    ∀ fuel, insertListToAllNot (fuel + 1) (statusGroupFromList list false false) list =
      some (statusGroupFromList list false false) := by
  constructor
  · intro fuel hf
    rw [insertListToAllNot_eq_widened list h fuel g hf]
    rfl
  · intro fuel
    rw [statusGroupFromList_eq]
    exact insertListToAllNot_child fuel list h

/-- C17 on the group of `^vendor` and the `normal` list. -/
theorem insertListToAllNot_terminates_witness :
    (∃ s ∈ normal, s.Not = false) ∧
    (∀ fuel, 2 ≤ fuel →
      (insertListToAllNot fuel
        (StatusGroup.mk [{ Location := StatusLocation.LocationVendor, Not := true }] []
          true false) normal).isSome = true) ∧
    ∀ fuel, insertListToAllNot (fuel + 1) (statusGroupFromList normal false false) normal =
      some (statusGroupFromList normal false false) :=
  ⟨by decide, insertListToAllNot_terminates
    (StatusGroup.mk [{ Location := StatusLocation.LocationVendor, Not := true }] [] true false)
    normal (by decide)⟩

/-- C18: when the list has a predicate that is not negated, applying
`insertListToAllNot` to its own result gives that result again. -/
theorem insertListToAllNot_twice (g : StatusGroup) (list : List Status)
    (h : ∃ s ∈ list, s.Not = false) :
    ∃ n, ∀ fuel, n ≤ fuel →
      ∃ g1, insertListToAllNot fuel g list = some g1 ∧
        insertListToAllNot fuel g1 list = some g1 := by
  refine ⟨max (depth g + 1) (depth (widened list g)), fun fuel hf => ⟨widened list g, ?_, ?_⟩⟩
  · exact insertListToAllNot_eq_widened list h fuel g (le_trans (le_max_left _ _) hf)
  · exact insertListToAllNot_fixed list fuel _
      (hasAllNotLeaf_widened list h _ g (le_refl _)) (le_trans (le_max_right _ _) hf)

/-- C18 on the group of `^vendor` and the `normal` list. -/
theorem insertListToAllNot_twice_witness :
    (∃ s ∈ normal, s.Not = false) ∧
    ∃ n, ∀ fuel, n ≤ fuel →
      ∃ g1, insertListToAllNot fuel
          (StatusGroup.mk [{ Location := StatusLocation.LocationVendor, Not := true }] []
            true false) normal = some g1 ∧
        insertListToAllNot fuel g1 normal = some g1 :=
  ⟨by decide, insertListToAllNot_twice
    (StatusGroup.mk [{ Location := StatusLocation.LocationVendor, Not := true }] [] true false)
    normal (by decide)⟩

/-! ## A query without status token -/

/-- C19: when `parseFilter` succeeds on tokens none of which begins with `+`,
the top-level group has no children and no predicates, the fallback with the
`normal` list appends the OR group of `normal` as its only child, and the
resulting filter has the status of an item exactly when the location of the
item is external, vendored, local or not-found. -/
theorem parseFilter_no_status_token {E : Type}
    (parse : GoString → GoString → Except E pkgspec.Pkg) (currentGoPath : GoString)
    (args : List GoString) (item : StatusItem)
    (hno : ∀ a ∈ args, a.head? ≠ some '+')
    (h : (parseFilter parse currentGoPath args).2 = none) :
    (parseFilter parse currentGoPath args).1.Status = StatusGroup.mk [] [] false false ∧
    (∀ fuel, 2 ≤ fuel →
      insertListToAllNot fuel (parseFilter parse currentGoPath args).1.Status normal =
        some (StatusGroup.mk [] [statusGroupFromList normal false false] false false)) ∧
    (filter.HasStatus
        { Status := StatusGroup.mk [] [statusGroupFromList normal false false] false false,
          Import := (parseFilter parse currentGoPath args).1.Import } item = true ↔
      item.Status.Location ∈ normalLocations) := by
  have hst : statusTokens args = [] := by
    simp only [statusTokens, List.filter_eq_nil_iff, decide_eq_true_eq]
    exact hno
  have hs : (parseFilter parse currentGoPath args).1.Status = StatusGroup.mk [] [] false false := by
    have := (parseFilterLoop_shape parse currentGoPath { Import := [] } args h).1
    rw [parseFilter, this, hst]
    rfl
  refine ⟨hs, ?_, ?_⟩
  · intro fuel hf
    rw [hs, insertListToAllNot_eq_widened normal (by decide) fuel _
      (by simp [depth, depthList]; omega), statusGroupFromList_eq]
    rfl
  · rw [← MatchGroup_normal, statusGroupFromList_eq]
    simp [filter.HasStatus, Status.MatchGroup, Status.MatchGroups]

/-- C19 on the tokens `a/pkg` and `b/sub` and an item of location local. -/
theorem parseFilter_no_status_token_witness :
    (parseFilter (fun _ p => (Except.ok { Path := p, MatchTree := false } : Except Unit pkgspec.Pkg))
        [] ["a/pkg".toList, "b/sub".toList]).1.Status = StatusGroup.mk [] [] false false ∧
    (∀ fuel, 2 ≤ fuel →
      insertListToAllNot fuel
        (parseFilter (fun _ p => (Except.ok { Path := p, MatchTree := false } : Except Unit pkgspec.Pkg))
          [] ["a/pkg".toList, "b/sub".toList]).1.Status normal =
        some (StatusGroup.mk [] [statusGroupFromList normal false false] false false)) ∧
    (filter.HasStatus
        { Status := StatusGroup.mk [] [statusGroupFromList normal false false] false false,
          Import :=
            (parseFilter
              (fun _ p => (Except.ok { Path := p, MatchTree := false } : Except Unit pkgspec.Pkg))
              [] ["a/pkg".toList, "b/sub".toList]).1.Import }
        { Status := { Location := StatusLocation.LocationLocal }, Local := "a/pkg".toList,
          Canonical := "a/pkg".toList } = true ↔
      StatusLocation.LocationLocal ∈ normalLocations) :=
  parseFilter_no_status_token
    (fun _ p => (Except.ok { Path := p, MatchTree := false } : Except Unit pkgspec.Pkg))
    [] ["a/pkg".toList, "b/sub".toList]
    { Status := { Location := StatusLocation.LocationLocal }, Local := "a/pkg".toList,
      Canonical := "a/pkg".toList }
    (by decide) rfl

/-! ## Abbreviations and the order of the keywords -/

theorem keywordTable_same_head_all :
    keywordTable.all (fun k1 => keywordTable.all (fun k2 =>
      decide (k1.1.head? = k2.1.head? → k1.2 = k2.2))) = true := by
  decide

/-- Keywords of the table that begin with the same character denote the same
predicate or the same list. -/
theorem keywordTable_same_head (k1 k2 : GoString × (Status ⊕ List Status))
    (h1 : k1 ∈ keywordTable) (h2 : k2 ∈ keywordTable) (hh : k1.1.head? = k2.1.head?) :
    k1.2 = k2.2 := by
  have h := keywordTable_same_head_all
  rw [List.all_eq_true] at h
  have h3 := h k1 h1
  rw [List.all_eq_true] at h3
  exact of_decide_eq_true (h3 k2 h2) hh

/-- Keywords that have the same non-empty term as a prefix denote the same
predicate or the same list. -/
theorem keywordTable_unambiguous (t : GoString) (ht : t ≠ [])
    (k1 k2 : GoString × (Status ⊕ List Status)) (h1 : k1 ∈ keywordTable)
    (h2 : k2 ∈ keywordTable) (hp1 : t <+: k1.1) (hp2 : t <+: k2.1) : k1.2 = k2.2 := by
  cases t with
  | nil => exact absurd rfl ht
  | cons c t =>
    have hd : ∀ k : GoString, (c :: t) <+: k → k.head? = some c := by
      intro k hk
      obtain ⟨r, rfl⟩ := hk
      rfl
    exact keywordTable_same_head k1 k2 h1 h2 ((hd _ hp1).trans (hd _ hp2).symm)

/-- In a table with the keywords in another order a non-empty term finds a
keyword that denotes the same. -/
theorem find_keyword_perm (table : List (GoString × (Status ⊕ List Status)))
    (hperm : table.Perm keywordTable) (t : GoString) (ht : t ≠ []) :
    (table.find? (fun k => decide (t <+: k.1))).map Prod.snd =
      (resolveKeyword t).map Prod.snd := by
  unfold resolveKeyword
  cases h1 : table.find? (fun k => decide (t <+: k.1)) with
  | none =>
    rw [List.find?_eq_none] at h1
    have h2 : keywordTable.find? (fun k => decide (t <+: k.1)) = none := by
      rw [List.find?_eq_none]
      intro k hk
      exact h1 k (hperm.mem_iff.2 hk)
    rw [h2]
  | some k1 =>
    have hm1 := hperm.mem_iff.1 (List.mem_of_find?_eq_some h1)
    have hp1 : t <+: k1.1 := by simpa using List.find?_some h1
    cases h2 : keywordTable.find? (fun k => decide (t <+: k.1)) with
    | none =>
      rw [List.find?_eq_none] at h2
      exact absurd (by simpa using hp1) (h2 k1 hm1)
    | some k2 =>
      have hm2 := List.mem_of_find?_eq_some h2
      have hp2 : t <+: k2.1 := by simpa using List.find?_some h2
      simp only [Option.map_some', Option.some.injEq]
      exact keywordTable_unambiguous t ht k1 k2 hm1 hm2 hp1 hp2

/-- With the keywords checked in another order, terms that are not empty
resolve to the same result. -/
theorem resolveTermsIn_perm {E : Type} (table : List (GoString × (Status ⊕ List Status)))
    (hperm : table.Perm keywordTable) (sg : StatusGroup) (ts : List GoString)
    (hts : ∀ t ∈ ts, termBody t ≠ []) :
    (resolveTermsIn table sg ts : StatusGroup × Option (Error E)) = resolveTerms sg ts := by
  induction ts generalizing sg with
  | nil => rfl
  | cons t ts ih =>
    have hf := find_keyword_perm table hperm (termBody t) (hts t (List.mem_cons_self _ _))
    have ih2 := fun sg2 => ih sg2 (fun x hx => hts x (List.mem_cons_of_mem _ hx))
    rw [resolveTermsIn, resolveTerms]
    revert hf
    generalize table.find? (fun k => decide (termBody t <+: k.1)) = a
    generalize resolveKeyword (termBody t) = b
    intro hf
    rcases a with _ | ⟨n1, d1⟩ <;> rcases b with _ | ⟨n2, d2⟩ <;>
      simp only [Option.map_some', Option.map_none', Option.some.injEq, reduceCtorEq] at hf
    · rfl
    · subst hf
      cases d1 with
      | inl p => exact ih2 _
      | inr l => exact ih2 _

/-- C20: keywords that have the same non-empty term as a prefix denote the
same predicate or the same list, so `parseStatusGroup` returns the same for
an expression without empty term in whatever order the keywords are checked;
for the empty term the order decides: with the keywords in reverse order it
resolves to `outside`, not to `external`. -/
theorem abbreviations_unambiguous :
    (∀ (t : GoString), t ≠ [] → ∀ k1 ∈ keywordTable, ∀ k2 ∈ keywordTable,
      t <+: k1.1 → t <+: k2.1 → k1.2 = k2.2) ∧
    (∀ (E : Type) (table : List (GoString × (Status ⊕ List Status)))
      (statusString : GoString), table.Perm keywordTable →
      (∀ t ∈ splitComma statusString, termBody t ≠ []) →
      (parseStatusGroup statusString : StatusGroup × Option (Error E)) =
        resolveTermsIn table (StatusGroup.mk [] [] true false) (splitComma statusString)) ∧
    (parseStatusGroup [] : StatusGroup × Option (Error Unit)) =
      (StatusGroup.mk [{ Location := StatusLocation.LocationExternal }] [] true false, none) ∧
    (resolveTermsIn keywordTable.reverse (StatusGroup.mk [] [] true false) (splitComma []) :
        StatusGroup × Option (Error Unit)) =
      (StatusGroup.mk [] [StatusGroup.mk outside [] false false] true false, none) ∧
    (parseStatusGroup [] : StatusGroup × Option (Error Unit)) ≠
      resolveTermsIn keywordTable.reverse (StatusGroup.mk [] [] true false) (splitComma []) := by
  refine ⟨fun t ht k1 h1 k2 h2 hp1 hp2 => keywordTable_unambiguous t ht k1 k2 h1 h2 hp1 hp2,
    fun E table s hperm hts => ?_, rfl, rfl, fun h => ?_⟩
  · rw [parseStatusGroup, parseStatusLoop_eq, resolveTermsIn_perm table hperm _ _ hts]
  · exact absurd (congrArg (fun r => r.1.Status.length) h) (by decide)

end Govendor
